import Mathlib

/-!
Verification development for the PPPM GPU charge-spreading kernels
(`src/lib/gpu/pppm_gpu_kernel.cu`).

Shallow embedding conventions:
* `numtyp` (the kernel's floating type) is modelled as `ℚ`: the claims under
  study are stated "under exact accumulation" / "under an exact-arithmetic
  embedding", so floating rounding is not modelled.
* C `int` is modelled as `ℤ`.  The C cast `int(t)` (truncation toward zero)
  is `intTrunc`.  `__mul24` is an ordinary product (the kernels use it on
  small in-range indices).
* The flat device arrays are modelled at their natural shapes:
  - the brick `brick[(z)*npts_yx + (y)*npts_x + x]` becomes a function
    `(ℤ × ℤ × ℤ) → ℚ` on grid points `(x, y, z)`;
  - the per-cell counters `counts[nz*nlocal_y*nlocal_x + ny*nlocal_x + nx]`
    become a function on cells `(nx, ny, nz) : ℤ × ℤ × ℤ`;
  - the atom list `ans[atom_stride*slot + cell]` becomes a function
    `cell → slot → Option ℤ` (`some ii` once slot `slot` of the cell's
    list has been written).
  For in-range cells and grid points these flattenings are injective, so the
  shaped model is faithful to the arrays.
* Atom fetches `fetch_pos(ii, x_)` / `fetch_q(ii, q_)` are modelled by handing
  each processed particle (an `Atom` record of position and charge) to the
  step function together with its index `ii`.
* The kernels' concurrent passes are modelled as sequential folds over the
  processed particles in an arbitrary order; order-(in)dependence is then
  proved or refuted about these folds.
-/

namespace PPPMGpu

/-- A particle: position (`numtyp4 p = fetch_pos`) and charge (`fetch_q`). -/
structure Atom where
  x : ℚ
  y : ℚ
  z : ℚ
  q : ℚ

/-- The box/grid geometry parameters shared by the kernels:
lower corner `b_lo_*`, inverse grid spacings `del*inv`, and the local
(non-ghost) cell extents `nlocal_*`. -/
structure Geom where
  b_lo_x : ℚ
  b_lo_y : ℚ
  b_lo_z : ℚ
  delxinv : ℚ
  delyinv : ℚ
  delzinv : ℚ
  nlocal_x : ℤ
  nlocal_y : ℤ
  nlocal_z : ℤ

/-- `tx=(p.x-b_lo_x)*delxinv` (particle_map line 141, make_rho3 line 383). -/
def tX (g : Geom) (p : Atom) : ℚ := (p.x - g.b_lo_x) * g.delxinv

/-- `ty=(p.y-b_lo_y)*delyinv`. -/
def tY (g : Geom) (p : Atom) : ℚ := (p.y - g.b_lo_y) * g.delyinv

/-- `tz=(p.z-b_lo_z)*delzinv`. -/
def tZ (g : Geom) (p : Atom) : ℚ := (p.z - g.b_lo_z) * g.delzinv

/-- The C cast `int(t)`: truncation toward zero. -/
def intTrunc (t : ℚ) : ℤ := if 0 ≤ t then ⌊t⌋ else -⌊-t⌋

/-- `nx=int(tx)` (particle_map line 142). -/
def nxOf (g : Geom) (p : Atom) : ℤ := intTrunc (tX g p)

/-- `ny=int(ty)`. -/
def nyOf (g : Geom) (p : Atom) : ℤ := intTrunc (tY g p)

/-- `nz=int(tz)`. -/
def nzOf (g : Geom) (p : Atom) : ℤ := intTrunc (tZ g p)

/-- The owning cell `(nx, ny, nz)` computed by particle_map and make_rho3. -/
def cellOf (g : Geom) (p : Atom) : ℤ × ℤ × ℤ := (nxOf g p, nyOf g p, nzOf g p)

/-- The out-of-domain test of particle_map line 148 and make_rho3 line 390:
`tx<0 || ty<0 || tz<0 || nx>=nlocal_x || ny>=nlocal_y || nz>=nlocal_z`. -/
def outOfDomain (g : Geom) (p : Atom) : Prop :=
  tX g p < 0 ∨ tY g p < 0 ∨ tZ g p < 0 ∨
    g.nlocal_x ≤ nxOf g p ∨ g.nlocal_y ≤ nyOf g p ∨ g.nlocal_z ≤ nzOf g p

instance (g : Geom) (p : Atom) : Decidable (outOfDomain g p) := by
  unfold outOfDomain; infer_instance

/-- The mutable state of the mapping pass: the per-cell counters `counts`,
the per-cell atom lists `ans` (cell → slot → stored particle index), and the
shared `*error` flag. -/
@[ext]
structure MapState where
  counts : ℤ × ℤ × ℤ → ℤ
  ans : ℤ × ℤ × ℤ → ℤ → Option ℤ
  error : ℤ

/-- The zeroed state at the start of a pass (counters and error flag are
zeroed by the host; no atom-list slot has been written). -/
def initState : MapState where
  counts := fun _ => 0
  ans := fun _ _ => none
  error := 0

/-- One particle_map worker body (lines 138-159), for the particle `ip.2`
with index `ii = ip.1`, acting on state `s`:

```
tx=(p.x-b_lo_x)*delxinv; nx=int(tx);  (same for y, z)
if (tx<0 || ty<0 || tz<0 || nx>=nlocal_x || ny>=nlocal_y || nz>=nlocal_z)
  *error=1;
else {
  int i=nz*nlocal_y*nlocal_x+ny*nlocal_x+nx;
  int old=atom_add(counts+i, 1);
  if (old==max_atoms) { *error=2; atom_add(counts+i,-1); }
  else ans[atom_stride*old+i]=ii;
}
```
The linear cell index `i` is modelled as the cell triple `c`; the slot
`atom_stride*old+i` as the pair (cell `c`, slot `old`). -/
def mapOne (g : Geom) (max_atoms : ℤ) (s : MapState) (ip : ℤ × Atom) : MapState :=
  if outOfDomain g ip.2 then
    { s with error := 1 }
  else if s.counts (cellOf g ip.2) = max_atoms then
    -- old=atom_add(counts+i,1) returned max_atoms:
    -- *error=2; atom_add(counts+i,-1): the undo leaves the counter at
    -- its prior value (the +1-1 below is the increment and its revert)
    { s with
      error := 2
      counts := fun c2 =>
        if c2 = cellOf g ip.2 then s.counts c2 + 1 - 1 else s.counts c2 }
  else
    -- old=atom_add(counts+i,1) reserved slot old: ans[atom_stride*old+i]=ii
    { s with
      counts := fun c2 =>
        if c2 = cellOf g ip.2 then s.counts c2 + 1 else s.counts c2
      ans := fun c2 k =>
        if c2 = cellOf g ip.2 ∧ k = s.counts (cellOf g ip.2) then some ip.1
        else s.ans c2 k }

/-- A whole mapping pass over the processed particles, in processing order. -/
def mapPass (g : Geom) (max_atoms : ℤ) (l : List (ℤ × Atom)) (s : MapState) : MapState :=
  l.foldl (mapOne g max_atoms) s

/-- The stride-based thread resequencing of particle_map lines 131-133 and
make_rho3 lines 373-375:

```
ii=__mul24(ii,skip);
ii-=int(ii/nthreads)*(nthreads-1);
```
`Int.tdiv` is C truncating division (for the nonnegative operands arising
from worker ids it agrees with floor division). -/
def resequence (nthreads skip i : ℤ) : ℤ :=
  let j := i * skip
  j - Int.tdiv j nthreads * (nthreads - 1)

/-! ### Horner evaluation of the stencil coefficients

The kernels evaluate one-dimensional charge-assignment weights by Horner
loops over the coefficient table `rho_coeff` (an `ℤ → ℚ` function here; the
kernels read a flat `order2+order`-entry array). -/

/-- Fuel-bounded embedding of the descending Horner loop
`for (l=start; l>=stop; l-=step) acc=coeff[l]+acc*d;`.
The fuel argument only bounds the iteration count; every use below passes
fuel strictly larger than the number of iterations actually executed. -/
def hornerLoop (coeff : ℤ → ℚ) (d : ℚ) (stop step : ℤ) : ℕ → ℤ → ℚ → ℚ
  | 0, _, acc => acc
  | fuel + 1, l, acc =>
      if stop ≤ l then hornerLoop coeff d stop step fuel (l - step) (coeff l + acc * d)
      else acc

/-- The 1-D weight of index `k` at offset `d`, as computed by make_rho
lines 209-216 and 219-222 (and identically by make_rho3 lines 400-407 and
410-413):

```
rho1d[k]=0.0;
for (int l=order2+k; l>=k; l-=order) rho1d[k]=rho_coeff[l]+rho1d[k]*d;
```
For `1 ≤ order` the loop executes `order2/order + 1 ≤ order2+order` times,
so the fuel `(order2+order).toNat + 1` is never exhausted. -/
def rho1dW (coeff : ℤ → ℚ) (order order2 : ℤ) (k : ℤ) (d : ℚ) : ℚ :=
  hornerLoop coeff d k order ((order2 + order).toNat + 1) (order2 + k) 0

/-- The 1-D weight used by make_rho2 lines 312-317 for the window index `m`
(and likewise `l`):

```
rho1d_1=0.0;
for (int k=order2+order-1; k > -1; k-=order) rho1d_1=rho_coeff[k-m]+rho1d_1*d;
```
(`k > -1` is `0 ≤ k`). -/
def rho1dW2 (coeff : ℤ → ℚ) (order order2 : ℤ) (m : ℤ) (d : ℚ) : ℚ :=
  hornerLoop (fun j => coeff (j - m)) d 0 order ((order2 + order).toNat + 1)
    (order2 + order - 1) 0

/-! ### The scatter deposit of make_rho / make_rho3 -/

/-- The offset triples `(l, m, n)` of the `order`-wide deposit loops. -/
def stencilBox (order : ℤ) : Finset (ℤ × ℤ × ℤ) :=
  Finset.Icc 0 (order - 1) ×ˢ Finset.Icc 0 (order - 1) ×ˢ Finset.Icc 0 (order - 1)

/-- The additions one atom makes into the brick, as a function of the grid
point, following make_rho lines 202-233 (and make_rho3 lines 393-424, which
run the same loops): with `z0=delvolinv*q`, the triple loop over
`n`, `m`, `l < order` adds

`y0=z0*rho1d_2(n,dz); x0=y0*rho1d[1][m]; brick[...] += x0*rho1d[0][l]`

at the flat index `(nz+n)*npts_yx + (ny+m)*npts_x + (nx+l)`, i.e. at grid
point `(c.1+l, c.2.1+m, c.2.2+n)` for the atom's cell `c`.  Under exact
accumulation the brick increment at `pt` is the sum of the matching loop
contributions. -/
def scatterOne (coeff : ℤ → ℚ) (order order2 : ℤ) (delvolinv : ℚ)
    (c : ℤ × ℤ × ℤ) (d : ℚ × ℚ × ℚ) (q : ℚ) (pt : ℤ × ℤ × ℤ) : ℚ :=
  ∑ o ∈ stencilBox order,
    if pt = (c.1 + o.1, c.2.1 + o.2.1, c.2.2 + o.2.2) then
      delvolinv * q * rho1dW coeff order order2 o.2.2 d.2.2 *
        rho1dW coeff order order2 o.2.1 d.2.1 * rho1dW coeff order order2 o.1 d.1
    else 0

/-- The cell offsets make_rho uses: `dx=nx-(p.x-b_lo_x)*delxinv` for the
atom's cell `c` (make_rho lines 204-206; the cell coordinates are those of
the cell whose atom list contains the atom). -/
def dOfRho (g : Geom) (c : ℤ × ℤ × ℤ) (p : Atom) : ℚ × ℚ × ℚ :=
  ((c.1 : ℚ) - tX g p, (c.2.1 : ℚ) - tY g p, (c.2.2 : ℚ) - tZ g p)

/-- The cells `0 ≤ nx < nlocal_x, 0 ≤ ny < nlocal_y, 0 ≤ nz < nlocal_z`
iterated by a full make_rho dispatch (lines 183-197: the launch grid covers
every local cell). -/
def cellBox (g : Geom) : Finset (ℤ × ℤ × ℤ) :=
  Finset.Icc 0 (g.nlocal_x - 1) ×ˢ Finset.Icc 0 (g.nlocal_y - 1) ×ˢ
    Finset.Icc 0 (g.nlocal_z - 1)

/-- A full make_rho pass (lines 162-238): every local cell's atom list is
walked (`for (row=0; row<natoms; row++) atom=atoms[...]`) and each atom's
stencil is scattered into the brick with atomic adds.  `alist c` is the atom
list of cell `c`; the brick starts at `brick0` (zeroed by the host before
the pass) and, under exact accumulation, ends at the sum of all deposits. -/
def makeRho (g : Geom) (coeff : ℤ → ℚ) (order order2 : ℤ) (delvolinv : ℚ)
    (alist : ℤ × ℤ × ℤ → List Atom) (brick0 : ℤ × ℤ × ℤ → ℚ)
    (pt : ℤ × ℤ × ℤ) : ℚ :=
  brick0 pt + ∑ c ∈ cellBox g,
    ((alist c).map
      (fun p => scatterOne coeff order order2 delvolinv c (dOfRho g c p) p.q pt)).sum

/-- The cell lists produced for make_rho by the mapping pass: each particle
is listed in the cell `cellOf` computed by particle_map (slot order within a
cell is processing-order dependent and irrelevant to the deposits). -/
def cellListsOf (g : Geom) (ps : List Atom) (c : ℤ × ℤ × ℤ) : List Atom :=
  ps.filter (fun p => cellOf g p = c)

/-- The full particle_map + make_rho pipeline on a particle list. -/
def makeRhoParticles (g : Geom) (coeff : ℤ → ℚ) (order order2 : ℤ)
    (delvolinv : ℚ) (ps : List Atom) (pt : ℤ × ℤ × ℤ) : ℚ :=
  makeRho g coeff order order2 delvolinv (cellListsOf g ps) (fun _ => 0) pt

/-- The offsets make_rho3 uses (lines 395-397):
`dx=nx+0.5-tx` etc., where `nx=int(tx)` is the particle's own cell. -/
def dOfRho3 (g : Geom) (p : Atom) : ℚ × ℚ × ℚ :=
  ((nxOf g p : ℚ) + 0.5 - tX g p,
   (nyOf g p : ℚ) + 0.5 - tY g p,
   (nzOf g p : ℚ) + 0.5 - tZ g p)

/-- One make_rho3 worker body (lines 380-426): recompute the owning cell
from the position; an out-of-domain particle sets `*error=1` and deposits
nothing; otherwise the same triple deposit loop as make_rho runs, with the
half-cell-shifted offsets `dOfRho3`.  (Only the brick effect is modelled
here; the error write is shared with particle_map and covered there.) -/
def makeRho3One (g : Geom) (coeff : ℤ → ℚ) (order order2 : ℤ) (delvolinv : ℚ)
    (brick : ℤ × ℤ × ℤ → ℚ) (p : Atom) : ℤ × ℤ × ℤ → ℚ :=
  if outOfDomain g p then brick
  else fun pt =>
    brick pt + scatterOne coeff order order2 delvolinv (cellOf g p) (dOfRho3 g p) p.q pt

/-- A full make_rho3 pass over the particle list. -/
def makeRho3 (g : Geom) (coeff : ℤ → ℚ) (order order2 : ℤ) (delvolinv : ℚ)
    (ps : List Atom) (brick0 : ℤ × ℤ × ℤ → ℚ) : ℤ × ℤ × ℤ → ℚ :=
  ps.foldl (makeRho3One g coeff order order2 delvolinv) brick0

/-! ### The tiled gather of make_rho2 -/

/-- The window start of make_rho2 lines 266-273:
`x_start=0; if (nx<order_m_1) x_start=order_m_1-nx;` (same for y). -/
def winStart (order_m_1 n : ℤ) : ℤ :=
  if n < order_m_1 then order_m_1 - n else 0

/-- The window stop of make_rho2 lines 268-277:
`x_stop=order; if (nx>=nlocal_x) x_stop-=nx-nlocal_x+1;` (same for y). -/
def winStop (order nloc n : ℤ) : ℤ :=
  if nloc ≤ n then order - (n - nloc + 1) else order

/-- The brick produced by a full make_rho2 dispatch (lines 242-349), written
directly as the value each grid point ends up holding.

One thread group runs per `(nx, ny) = (BLOCK_ID_X, BLOCK_ID_Y)` column of
the extended grid.  Each thread owns grid point `nz = tx + BLOCK_1D*i` of its
column and, while `nz < nlocal_z`, accumulates `ans[n]` (destined for grid
point `nz + n` of the column) over every atom of every cell in the
`(x_start..x_stop) × (y_start..y_stop)` window at cell layer `nz` (lines
292-329); the `front` buffer with its `order`-entry halo and barriers (lines
331-344) then delivers, for each written grid point `gz < npts_z`, exactly
the `ans[n]` contributions of the threads owning cell layer `gz - n`,
`0 ≤ n < order`, across tile boundaries.  Grid points outside the dispatch
are never written and keep `brick0`.  The atom loop
`for (row=pos; row<natoms; row+=atom_stride)` walks slots `0..counts-1` of
the cell's list (`pos < atom_stride` for every cell), so its summand is the
same list walk as make_rho's; the weights are `rho1dW2` for x and y (indices
`k-l`, `k-m`) and `rho1dW` for z. -/
def makeRho2 (g : Geom) (coeff : ℤ → ℚ) (order order2 : ℤ) (delvolinv : ℚ)
    (npts_x npts_y npts_z : ℤ) (alist : ℤ × ℤ × ℤ → List Atom)
    (brick0 : ℤ × ℤ × ℤ → ℚ) (pt : ℤ × ℤ × ℤ) : ℚ :=
  if 0 ≤ pt.1 ∧ pt.1 < npts_x ∧ 0 ≤ pt.2.1 ∧ pt.2.1 < npts_y ∧
      0 ≤ pt.2.2 ∧ pt.2.2 < npts_z then
    ∑ n ∈ Finset.Icc 0 (order - 1),
      (if 0 ≤ pt.2.2 - n ∧ pt.2.2 - n < g.nlocal_z then
        ∑ m ∈ Finset.Icc (winStart (order - 1) pt.2.1)
            (winStop order g.nlocal_y pt.2.1 - 1),
          ∑ l ∈ Finset.Icc (winStart (order - 1) pt.1)
              (winStop order g.nlocal_x pt.1 - 1),
            ((alist (pt.1 + l - (order - 1), pt.2.1 + m - (order - 1), pt.2.2 - n)).map
              (fun p =>
                delvolinv * p.q *
                  rho1dW coeff order order2 n (((pt.2.2 - n : ℤ) : ℚ) - tZ g p) *
                  rho1dW2 coeff order order2 m (((pt.2.1 + m - (order - 1) : ℤ) : ℚ) - tY g p) *
                  rho1dW2 coeff order order2 l (((pt.1 + l - (order - 1) : ℤ) : ℚ) - tX g p))).sum
      else 0)
  else brick0 pt

/-! ### The atomic floating add primitives (sequential semantics)

With no concurrent writer, `atomicCAS(address, cmp, new)` reads the current
cell value, stores `new` exactly when the current value equals `cmp`, and
returns the value read.  The memory cell holds one `ℚ` (the float/int and
double/longlong bit casts are mutually inverse bijections, so the loops are
modelled directly on the stored values). -/

/-- The float-variant retry loop (lines 85-96):

```
i_val=val; tmp0=0;
while ((tmp1=atomicCAS(address, tmp0, i_val)) != tmp0) {
  tmp0=tmp1; i_val=val+tmp1;
}
```
State: `mem` is the cell, `tmp0`/`i_val` the loop variables.  Returns
`some (finalMem, iterations)` if the loop exits within `fuel` iterations. -/
def floatAddLoop (val : ℚ) : ℕ → ℚ → ℚ → ℚ → Option (ℚ × ℕ)
  | 0, _, _, _ => none
  | fuel + 1, mem, tmp0, i_val =>
      if mem = tmp0 then some (i_val, 1)
      else
        match floatAddLoop val fuel mem mem (val + mem) with
        | some (m, k) => some (m, k + 1)
        | none => none

/-- `atomicFloatAdd(float*, float)` run on a cell holding `mem`. -/
def atomicFloatAddF (fuel : ℕ) (mem val : ℚ) : Option (ℚ × ℕ) :=
  floatAddLoop val fuel mem 0 val

/-- The double-variant retry loop (lines 64-73):

```
old=*address;
do { assumed=old;
     old=CAS(address, assumed, val+assumed); } while (assumed != old);
```
`old` enters each iteration holding the last value read from the cell. -/
def doubleAddLoop (val : ℚ) : ℕ → ℚ → ℚ → Option (ℚ × ℕ)
  | 0, _, _ => none
  | fuel + 1, mem, old =>
      if mem = old then some (val + old, 1)
      else
        match doubleAddLoop val fuel mem mem with
        | some (m, k) => some (m, k + 1)
        | none => none

/-- `atomicFloatAdd(double*, double)` run on a cell holding `mem`
(`old` is initialized to `*address`). -/
def atomicFloatAddD (fuel : ℕ) (mem val : ℚ) : Option (ℚ × ℕ) :=
  doubleAddLoop val fuel mem mem

/-! ### Basic lemmas about the mapping step -/

lemma mapOne_out (g : Geom) (max_atoms : ℤ) (s : MapState) (ip : ℤ × Atom)
    (h : outOfDomain g ip.2) :
    mapOne g max_atoms s ip = { s with error := 1 } := by
  simp [mapOne, h]

lemma mapOne_overflow (g : Geom) (max_atoms : ℤ) (s : MapState) (ip : ℤ × Atom)
    (h : ¬outOfDomain g ip.2) (hc : s.counts (cellOf g ip.2) = max_atoms) :
    mapOne g max_atoms s ip = { s with error := 2 } := by
  rw [mapOne, if_neg h, if_pos hc]
  ext c2
  · by_cases h2 : c2 = cellOf g ip.2 <;> simp [h2]
  · rfl
  · rfl

lemma mapOne_insert (g : Geom) (max_atoms : ℤ) (s : MapState) (ip : ℤ × Atom)
    (h : ¬outOfDomain g ip.2) (hc : s.counts (cellOf g ip.2) ≠ max_atoms) :
    mapOne g max_atoms s ip =
      { s with
        counts := fun c2 =>
          if c2 = cellOf g ip.2 then s.counts c2 + 1 else s.counts c2
        ans := fun c2 k =>
          if c2 = cellOf g ip.2 ∧ k = s.counts (cellOf g ip.2) then some ip.1
          else s.ans c2 k } := by
  rw [mapOne, if_neg h, if_neg hc]

/-- The per-cell counter after one step: it advances by one exactly for an
in-domain particle landing in a cell that is not yet at `max_atoms`. -/
lemma mapOne_counts (g : Geom) (max_atoms : ℤ) (s : MapState) (ip : ℤ × Atom)
    (c : ℤ × ℤ × ℤ) :
    (mapOne g max_atoms s ip).counts c =
      if ¬outOfDomain g ip.2 ∧ cellOf g ip.2 = c ∧ s.counts c ≠ max_atoms then
        s.counts c + 1
      else s.counts c := by
  by_cases h : outOfDomain g ip.2
  · simp [mapOne_out g max_atoms s ip h, h]
  · by_cases hfull : s.counts (cellOf g ip.2) = max_atoms
    · rw [mapOne_overflow g max_atoms s ip h hfull]
      by_cases hcell : cellOf g ip.2 = c
      · subst hcell; simp [hfull]
      · simp [h, hcell]
    · rw [mapOne_insert g max_atoms s ip h hfull]
      by_cases hcell : cellOf g ip.2 = c
      · subst hcell; simp [h, hfull]
      · have h2 : ¬(c = cellOf g ip.2) := fun h3 => hcell h3.symm
        simp [h, hcell, h2]

/-- The number of processed particles that are in-domain and owned by cell
`c` (each such particle attempts an insertion into `c`). -/
def hitCount (g : Geom) (c : ℤ × ℤ × ℤ) (l : List (ℤ × Atom)) : ℕ :=
  l.countP (fun ip => decide (¬outOfDomain g ip.2 ∧ cellOf g ip.2 = c))

/-- Closed form for the per-cell counters after a mapping pass: insertion
saturates at the capacity. -/
lemma mapPass_counts (g : Geom) (max_atoms : ℤ) (l : List (ℤ × Atom)) :
    ∀ s : MapState, (∀ c2, s.counts c2 ≤ max_atoms) → ∀ c,
      (mapPass g max_atoms l s).counts c =
        min (s.counts c + (hitCount g c l : ℤ)) max_atoms := by
  induction l with
  | nil =>
      intro s hs c
      simp only [mapPass, List.foldl_nil, hitCount, List.countP_nil]
      have := hs c
      omega
  | cons ip l ih =>
      intro s hs c
      have hstep : ∀ c2, (mapOne g max_atoms s ip).counts c2 ≤ max_atoms := by
        intro c2
        rw [mapOne_counts g max_atoms s ip c2]
        have := hs c2
        split_ifs with h
        · omega
        · exact this
      have hrec := ih (mapOne g max_atoms s ip) hstep c
      simp only [mapPass, List.foldl_cons] at hrec ⊢
      rw [hrec, mapOne_counts g max_atoms s ip c]
      have hcnt : (hitCount g c (ip :: l) : ℤ) =
          (hitCount g c l : ℤ) +
            (if ¬outOfDomain g ip.2 ∧ cellOf g ip.2 = c then 1 else 0) := by
        simp only [hitCount, List.countP_cons, decide_eq_true_eq]
        split_ifs with h <;> push_cast <;> omega
      rw [hcnt]
      have hsc := hs c
      by_cases h1 : ¬outOfDomain g ip.2 ∧ cellOf g ip.2 = c
      · by_cases h2 : s.counts c = max_atoms
        · rw [if_neg (by simp [h1, h2]), if_pos h1]
          omega
        · rw [if_pos ⟨h1.1, h1.2, h2⟩, if_pos h1]
          omega
      · rw [if_neg (fun h3 => h1 ⟨h3.1, h3.2.1⟩), if_neg h1]
        omega

/-- The error flag evolves by plain stores: each step either leaves it, sets
it to 1 (out-of-domain), or sets it to 2 (overflow); the last store wins. -/
lemma mapOne_error (g : Geom) (max_atoms : ℤ) (s : MapState) (ip : ℤ × Atom) :
    (mapOne g max_atoms s ip).error =
      if outOfDomain g ip.2 then 1
      else if s.counts (cellOf g ip.2) = max_atoms then 2
      else s.error := by
  by_cases h : outOfDomain g ip.2
  · simp [mapOne_out g max_atoms s ip h, h]
  · by_cases hfull : s.counts (cellOf g ip.2) = max_atoms
    · simp [mapOne_overflow g max_atoms s ip h hfull, h, hfull]
    · simp [mapOne_insert g max_atoms s ip h hfull, h, hfull]

lemma mapPass_append (g : Geom) (max_atoms : ℤ) (l1 l2 : List (ℤ × Atom))
    (s : MapState) :
    mapPass g max_atoms (l1 ++ l2) s = mapPass g max_atoms l2 (mapPass g max_atoms l1 s) :=
  List.foldl_append _ _ _ _

lemma intTrunc_eq_floor (t : ℚ) (h : 0 ≤ t) : intTrunc t = ⌊t⌋ := if_pos h

/-- Decomposition of the in-domain condition. -/
lemma not_outOfDomain_iff (g : Geom) (p : Atom) :
    ¬outOfDomain g p ↔
      0 ≤ tX g p ∧ 0 ≤ tY g p ∧ 0 ≤ tZ g p ∧
        nxOf g p < g.nlocal_x ∧ nyOf g p < g.nlocal_y ∧ nzOf g p < g.nlocal_z := by
  unfold outOfDomain
  push_neg
  tauto

/-- Repeatedly mapping the same in-domain particle while capacity remains:
each step inserts, the counter advances, and the error flag is untouched. -/
lemma mapPass_replicate (g : Geom) (max_atoms : ℤ) (i : ℤ) (p : Atom)
    (hdom : ¬outOfDomain g p) :
    ∀ (k : ℕ) (s : MapState), s.counts (cellOf g p) + k ≤ max_atoms →
      (mapPass g max_atoms (List.replicate k (i, p)) s).error = s.error ∧
      (mapPass g max_atoms (List.replicate k (i, p)) s).counts (cellOf g p) =
        s.counts (cellOf g p) + k := by
  intro k
  induction k with
  | zero => intro s _; simp [mapPass]
  | succ k ih =>
      intro s hs
      have hne : s.counts (cellOf g p) ≠ max_atoms := by omega
      have hins := mapOne_insert g max_atoms s (i, p) hdom hne
      simp only [List.replicate_succ, mapPass, List.foldl_cons]
      have hstep : (mapOne g max_atoms s (i, p)).counts (cellOf g p) =
          s.counts (cellOf g p) + 1 := by
        rw [hins]; simp
      have herr : (mapOne g max_atoms s (i, p)).error = s.error := by
        rw [hins]
      have := ih (mapOne g max_atoms s (i, p)) (by rw [hstep]; omega)
      simp only [mapPass] at this
      refine ⟨by rw [this.1, herr], by rw [this.2, hstep]; push_cast; ring⟩

/-! ### Concrete instances used by witnesses and counterexamples -/

/-- A unit box of a single local cell. -/
def unitGeom : Geom := ⟨0, 0, 0, 1, 1, 1, 1, 1, 1⟩

/-- A 2×2×2-cell box. -/
def twoGeom : Geom := ⟨0, 0, 0, 1, 1, 1, 2, 2, 2⟩

/-- An in-domain particle at the origin (fractional coordinates 0). -/
def originAtom : Atom := ⟨0, 0, 0, 1⟩

/-- An out-of-domain particle (negative x). -/
def outAtom : Atom := ⟨-1, 0, 0, 1⟩

/-- An in-domain particle owned by cell (1,0,0) of `twoGeom`. -/
def oneAtom : Atom := ⟨1, 0, 0, 1⟩

lemma outAtom_bad : outOfDomain unitGeom outAtom := by
  norm_num [outOfDomain, unitGeom, outAtom, tX]

lemma originAtom_ok : ¬outOfDomain unitGeom originAtom := by
  norm_num [outOfDomain, unitGeom, originAtom, tX, tY, tZ, nxOf, nyOf, nzOf, intTrunc]

lemma originAtom_cell : cellOf unitGeom originAtom = (0, 0, 0) := by
  norm_num [cellOf, unitGeom, originAtom, tX, tY, tZ, nxOf, nyOf, nzOf, intTrunc]

lemma oneAtom_ok : ¬outOfDomain twoGeom oneAtom := by
  norm_num [outOfDomain, twoGeom, oneAtom, tX, tY, tZ, nxOf, nyOf, nzOf, intTrunc]

lemma oneAtom_cell : cellOf twoGeom oneAtom = (1, 0, 0) := by
  norm_num [cellOf, twoGeom, oneAtom, tX, tY, tZ, nxOf, nyOf, nzOf, intTrunc]

/-! ### Claim theorems: mapper error handling -/

/-- Claim C3: a particle whose fractional coordinate `t` is negative on some
axis, or whose integer part reaches the local extent on some axis, makes the
mapper record error code 1 while leaving the counters and every cell's atom
list untouched (no insertion), and make_rho3 deposits nothing for it (its
charge is excluded from the brick). -/
theorem claim_C3 (g : Geom) (max_atoms : ℤ) (coeff : ℤ → ℚ) (order order2 : ℤ)
    (delvolinv : ℚ) (s : MapState) (ip : ℤ × Atom)
    (h : outOfDomain g ip.2) :
    mapOne g max_atoms s ip = { s with error := 1 } ∧
    ∀ brick, makeRho3One g coeff order order2 delvolinv brick ip.2 = brick :=
  ⟨mapOne_out g max_atoms s ip h, fun brick => by simp [makeRho3One, h]⟩

theorem claim_C3_witness :
    outOfDomain unitGeom outAtom ∧
    (mapOne unitGeom 10 initState (0, outAtom)).error = 1 :=
  ⟨outAtom_bad,
   by rw [(claim_C3 unitGeom 10 (fun _ => 0) 2 2 1 initState
      (0, outAtom) outAtom_bad).1]⟩

/-- Claim C7: for an in-domain particle (and a cell that is not full), the
owning cell is the componentwise floor of the fractional coordinates, the
particle index is stored at the slot given by the counter value before the
increment, and the counter advances by one. -/
theorem claim_C7 (g : Geom) (max_atoms : ℤ) (s : MapState) (ip : ℤ × Atom)
    (h : ¬outOfDomain g ip.2) (hfull : s.counts (cellOf g ip.2) ≠ max_atoms) :
    cellOf g ip.2 = (⌊tX g ip.2⌋, ⌊tY g ip.2⌋, ⌊tZ g ip.2⌋) ∧
    (mapOne g max_atoms s ip).ans (cellOf g ip.2) (s.counts (cellOf g ip.2)) =
      some ip.1 ∧
    (mapOne g max_atoms s ip).counts (cellOf g ip.2) = s.counts (cellOf g ip.2) + 1 := by
  obtain ⟨h1, h2, h3, -⟩ := (not_outOfDomain_iff g ip.2).mp h
  refine ⟨?_, ?_, ?_⟩
  · simp [cellOf, nxOf, nyOf, nzOf, intTrunc_eq_floor _ h1, intTrunc_eq_floor _ h2,
      intTrunc_eq_floor _ h3]
  · rw [mapOne_insert g max_atoms s ip h hfull]
    simp
  · rw [mapOne_counts g max_atoms s ip (cellOf g ip.2)]
    simp [h, hfull]

theorem claim_C7_witness :
    ¬outOfDomain twoGeom oneAtom ∧
    initState.counts (cellOf twoGeom oneAtom) ≠ 5 ∧
    cellOf twoGeom oneAtom = (1, 0, 0) ∧
    (mapOne twoGeom 5 initState (7, oneAtom)).ans (1, 0, 0) 0 = some 7 := by
  have h2 : initState.counts (cellOf twoGeom oneAtom) ≠ 5 := by
    simp [initState]
  have hc := claim_C7 twoGeom 5 initState (7, oneAtom) oneAtom_ok h2
  refine ⟨oneAtom_ok, h2, oneAtom_cell, ?_⟩
  have h3 := hc.2.1
  rw [oneAtom_cell] at h3
  have h4 : initState.counts ((1 : ℤ), (0 : ℤ), (0 : ℤ)) = 0 := rfl
  rw [h4] at h3
  exact h3

/-- Claim C5 is refuted by the code: the error stores are plain writes, so
the flag is last-write-wins, not worst-code-wins.  With capacity 0 the first
(in-domain) particle overflows its cell and stores code 2; the second
particle is out of domain and overwrites the flag with code 1. -/
theorem claim_C5_counterexample :
    (mapOne unitGeom 0 initState (0, originAtom)).error = 2 ∧
    (mapPass unitGeom 0 [(0, originAtom), (1, outAtom)] initState).error = 1 := by
  constructor
  · rw [mapOne_error]
    simp [originAtom_ok, initState]
  · simp only [mapPass, List.foldl_cons, List.foldl_nil]
    rw [mapOne_error]
    simp [outAtom_bad]

/-- Claim C5 amended: the shared error flag is last-write-wins.  An
out-of-domain particle stores code 1 unconditionally — in particular it
replaces an earlier code 2 — so a pass whose last processed particle is out
of domain ends with the flag holding 1 whatever was observed before. -/
theorem claim_C5_amended (g : Geom) (max_atoms : ℤ) (l : List (ℤ × Atom))
    (ip : ℤ × Atom) (s : MapState) (h : outOfDomain g ip.2) :
    (∀ s2 : MapState, (mapOne g max_atoms s2 ip).error = 1) ∧
    (mapPass g max_atoms (l ++ [ip]) s).error = 1 := by
  refine ⟨fun s2 => by rw [mapOne_error]; simp [h], ?_⟩
  rw [mapPass_append]
  simp only [mapPass, List.foldl_cons, List.foldl_nil]
  rw [mapOne_error]
  simp [h]

theorem claim_C5_amended_witness :
    outOfDomain unitGeom outAtom ∧
    (mapPass unitGeom 0 ([(0, originAtom)] ++ [(1, outAtom)]) initState).error = 1 :=
  ⟨outAtom_bad,
   (claim_C5_amended unitGeom 0 [(0, originAtom)] (1, outAtom) initState outAtom_bad).2⟩

/-- Claim C4: on a full cell (pre-increment counter equal to `max_atoms`) the
mapper records error code 2, reverts the counter to the capacity, and skips
the insertion; mapping `capacity+1` in-domain copies into one cell from a
zeroed state ends with error 2 and the counter at the capacity; and after
any pass from a zeroed state every counter is at most the capacity. -/
theorem claim_C4 (g : Geom) (max_atoms : ℤ) (i : ℤ) (p : Atom)
    (hmax : 0 ≤ max_atoms) (hdom : ¬outOfDomain g p) :
    (∀ (s : MapState) (j : ℤ), s.counts (cellOf g p) = max_atoms →
        mapOne g max_atoms s (j, p) = { s with error := 2 } ∧
        (mapOne g max_atoms s (j, p)).counts (cellOf g p) = max_atoms) ∧
    ((mapPass g max_atoms (List.replicate (max_atoms.toNat + 1) (i, p))
        initState).error = 2 ∧
      (mapPass g max_atoms (List.replicate (max_atoms.toNat + 1) (i, p))
        initState).counts (cellOf g p) = max_atoms) ∧
    (∀ (l : List (ℤ × Atom)) (c : ℤ × ℤ × ℤ),
        (mapPass g max_atoms l initState).counts c ≤ max_atoms) := by
  refine ⟨?_, ?_, ?_⟩
  · intro s j hful
    have h := mapOne_overflow g max_atoms s (j, p) hdom hful
    exact ⟨h, by rw [h]; exact hful⟩
  · have hrep := mapPass_replicate g max_atoms i p hdom max_atoms.toNat initState
      (by simp [initState]; omega)
    rw [List.replicate_succ' max_atoms.toNat (i, p), mapPass_append]
    have hcnt : (mapPass g max_atoms (List.replicate max_atoms.toNat (i, p))
        initState).counts (cellOf g p) = max_atoms := by
      rw [hrep.2]; simp [initState]; omega
    have hov := mapOne_overflow g max_atoms
      (mapPass g max_atoms (List.replicate max_atoms.toNat (i, p)) initState)
      (i, p) hdom hcnt
    simp only [mapPass, List.foldl_cons, List.foldl_nil] at hov hcnt ⊢
    rw [hov]
    exact ⟨rfl, hcnt⟩
  · intro l c
    rw [mapPass_counts g max_atoms l initState (by intro c2; simp [initState]; omega) c]
    have h0 : initState.counts c = 0 := rfl
    rw [h0]
    omega

theorem claim_C4_witness :
    (0 ≤ (1:ℤ)) ∧ ¬outOfDomain unitGeom originAtom ∧
    (mapPass unitGeom 1
        (List.replicate ((1:ℤ).toNat + 1) (0, originAtom)) initState).error = 2 :=
  ⟨by norm_num, originAtom_ok,
   ((claim_C4 unitGeom 1 0 originAtom (by norm_num) originAtom_ok).2.1).1⟩

/-! ### Claim C10: the atomic add retry loops -/

/-- Claim C10: with no concurrent writer both atomicFloatAdd variants
terminate within two compare-and-swap iterations and leave `old + val` in
the cell, for every initial value `mem` (the float variant's first attempt
compares against 0 and needs the retry path exactly when `mem ≠ 0`). -/
theorem claim_C10 (mem val : ℚ) (fuel : ℕ) (hfuel : 2 ≤ fuel) :
    (∃ k ≤ 2, atomicFloatAddF fuel mem val = some (mem + val, k)) ∧
    (∃ k ≤ 2, atomicFloatAddD fuel mem val = some (mem + val, k)) := by
  obtain ⟨f2, rfl⟩ : ∃ f2, fuel = f2 + 2 := ⟨fuel - 2, by omega⟩
  constructor
  · by_cases h : mem = 0
    · exact ⟨1, by omega, by simp [atomicFloatAddF, floatAddLoop, h]⟩
    · exact ⟨2, by omega, by simp [atomicFloatAddF, floatAddLoop, h, add_comm]⟩
  · exact ⟨1, by omega, by simp [atomicFloatAddD, doubleAddLoop, add_comm]⟩

theorem claim_C10_witness :
    2 ≤ 2 ∧
    (∃ k ≤ 2, atomicFloatAddF 2 3 5 = some ((3:ℚ) + 5, k)) ∧
    (∃ k ≤ 2, atomicFloatAddD 2 3 5 = some ((3:ℚ) + 5, k)) :=
  ⟨le_refl 2, claim_C10 3 5 2 (le_refl 2)⟩

/-! ### Claim C6: the stride resequencing map -/

/-- Closed form of the resequencing map when the stride divides the thread
count: with `m = n / skip` and `i = m*(i/m) + i%m`, worker `i` is sent to
particle `skip*(i%m) + i/m`. -/
lemma resequence_eq (n skip : ℤ) (hn : 0 < n) (hs : 0 < skip) (hdvd : skip ∣ n)
    (i : ℤ) (h0 : 0 ≤ i) (_h1 : i < n) :
    resequence n skip i = skip * (i % (n / skip)) + i / (n / skip) := by
  have hnm : skip * (n / skip) = n := Int.mul_ediv_cancel' hdvd
  set m := n / skip with hmdef
  have hm0 : 0 < m := by
    rcases lt_or_le 0 m with h | h
    · exact h
    · exfalso; nlinarith
  have hqr : m * (i / m) + i % m = i := Int.ediv_add_emod i m
  have hr0 : 0 ≤ i % m := Int.emod_nonneg i (ne_of_gt hm0)
  have hr1 : i % m < m := Int.emod_lt_of_pos i hm0
  have hj : i * skip = skip * (i % m) + i / m * n := by
    calc i * skip = (m * (i / m) + i % m) * skip := by rw [hqr]
    _ = skip * (i % m) + i / m * (skip * m) := by ring
    _ = skip * (i % m) + i / m * n := by rw [hnm]
  have hsr : skip * (i % m) < n := by
    have h2 := mul_lt_mul_of_pos_left hr1 hs
    rw [hnm] at h2
    exact h2
  have hdiv : (i * skip).tdiv n = i / m := by
    rw [Int.tdiv_eq_ediv (mul_nonneg h0 (le_of_lt hs)) (le_of_lt hn), hj,
      Int.add_mul_ediv_right _ _ (ne_of_gt hn),
      Int.ediv_eq_zero_of_lt (mul_nonneg (le_of_lt hs) hr0) hsr, zero_add]
  simp only [resequence]
  rw [hdiv, hj]
  ring

/-- Claim C6 is refuted by the code: the resequencing formula is not a
permutation of `{0, ..., n-1}` for every stride.  At `n = 3`, `skip = 2`
workers 1 and 2 are both sent to particle 2 (`2*2 - (4/3)*2 = 2`), so the
map is not injective on `{0, 1, 2}`. -/
theorem claim_C6_counterexample :
    ¬Set.InjOn (resequence 3 2) (Set.Icc (0:ℤ) 2) := by
  intro h
  have h12 : resequence 3 2 1 = resequence 3 2 2 := by decide
  have h2 := h (Set.mem_Icc.mpr (by norm_num)) (Set.mem_Icc.mpr (by norm_num)) h12
  norm_num at h2

/-- Claim C6 amended: when the stride divides the thread count (`skip ∣ n`,
the launch regime the heuristic is built for), the resequencing map is a
permutation of `{0, ..., n-1}`; consequently every particle index below
`nlocal ≤ n` is processed by exactly one worker, and the final per-cell
counters of a mapping pass are the same for any processing order of the
same particles (mapping correctness does not depend on the reindexing). -/
theorem claim_C6_amended (n skip nlocal : ℤ) (hn : 0 < n) (hs : 0 < skip)
    (hdvd : skip ∣ n) (hnl : nlocal ≤ n) :
    Set.BijOn (resequence n skip) (Set.Ico 0 n) (Set.Ico 0 n) ∧
    (∀ i : ℤ, 0 ≤ i → i < nlocal →
      ∃! w, w ∈ Set.Ico (0:ℤ) n ∧ resequence n skip w = i) ∧
    (∀ (g : Geom) (max_atoms : ℤ) (l l2 : List (ℤ × Atom)), 0 ≤ max_atoms →
      l.Perm l2 →
      (mapPass g max_atoms l initState).counts =
        (mapPass g max_atoms l2 initState).counts) := by
  have hnm : skip * (n / skip) = n := Int.mul_ediv_cancel' hdvd
  set m := n / skip with hmdef
  have hm0 : 0 < m := by
    rcases lt_or_le 0 m with h | h
    · exact h
    · exfalso; nlinarith
  have hmem : ∀ i : ℤ, 0 ≤ i → i < n →
      0 ≤ resequence n skip i ∧ resequence n skip i < n := by
    intro i h0 h1
    rw [resequence_eq n skip hn hs hdvd i h0 h1, ← hmdef]
    have hr0 : 0 ≤ i % m := Int.emod_nonneg i (ne_of_gt hm0)
    have hr1 : i % m < m := Int.emod_lt_of_pos i hm0
    have hq0 : 0 ≤ i / m := Int.ediv_nonneg h0 (le_of_lt hm0)
    have hq1 : i / m < skip := by
      rw [Int.ediv_lt_iff_lt_mul hm0]
      linarith
    constructor
    · have := mul_nonneg (le_of_lt hs) hr0
      omega
    · have h2 : skip * (i % m) ≤ skip * (m - 1) :=
        mul_le_mul_of_nonneg_left (by omega) (le_of_lt hs)
      nlinarith
  have hbij : Set.BijOn (resequence n skip) (Set.Ico 0 n) (Set.Ico 0 n) := by
    refine ⟨?_, ?_, ?_⟩
    · intro i hi
      rw [Set.mem_Ico] at hi ⊢
      exact hmem i hi.1 hi.2
    · intro i hi i2 hi2 heq
      rw [Set.mem_Ico] at hi hi2
      rw [resequence_eq n skip hn hs hdvd i hi.1 hi.2,
        resequence_eq n skip hn hs hdvd i2 hi2.1 hi2.2, ← hmdef] at heq
      have hr0 : 0 ≤ i % m := Int.emod_nonneg i (ne_of_gt hm0)
      have hq0 : 0 ≤ i / m := Int.ediv_nonneg hi.1 (le_of_lt hm0)
      have hq1 : i / m < skip := by
        rw [Int.ediv_lt_iff_lt_mul hm0]; linarith
      have hr0b : 0 ≤ i2 % m := Int.emod_nonneg i2 (ne_of_gt hm0)
      have hq0b : 0 ≤ i2 / m := Int.ediv_nonneg hi2.1 (le_of_lt hm0)
      have hq1b : i2 / m < skip := by
        rw [Int.ediv_lt_iff_lt_mul hm0]; linarith
      have hq : i / m = i2 / m := by
        have h3 := congrArg (fun t => t % skip) heq
        simp only [add_comm (skip * (i % m)), add_comm (skip * (i2 % m)),
          Int.add_mul_emod_self_left] at h3
        rwa [Int.emod_eq_of_lt hq0 hq1, Int.emod_eq_of_lt hq0b hq1b] at h3
      have hr : i % m = i2 % m := by
        have h4 : skip * (i % m) = skip * (i2 % m) := by omega
        exact mul_left_cancel₀ (ne_of_gt hs) h4
      have e1 := Int.ediv_add_emod i m
      have e2 := Int.ediv_add_emod i2 m
      rw [hq, hr] at e1
      omega
    · intro y hy
      rw [Set.mem_Ico] at hy
      have hr0 : 0 ≤ y % skip := Int.emod_nonneg y (ne_of_gt hs)
      have hr1 : y % skip < skip := Int.emod_lt_of_pos y hs
      have hq0 : 0 ≤ y / skip := Int.ediv_nonneg hy.1 (le_of_lt hs)
      have hq1 : y / skip < m := by
        rw [Int.ediv_lt_iff_lt_mul hs]
        nlinarith
      refine ⟨m * (y % skip) + y / skip, ?_, ?_⟩
      · rw [Set.mem_Ico]
        constructor
        · have := mul_nonneg (le_of_lt hm0) hr0
          omega
        · have h2 : m * (y % skip) ≤ m * (skip - 1) :=
            mul_le_mul_of_nonneg_left (by omega) (le_of_lt hm0)
          nlinarith
      · have hib : 0 ≤ m * (y % skip) + y / skip ∧ m * (y % skip) + y / skip < n := by
          constructor
          · have := mul_nonneg (le_of_lt hm0) hr0
            omega
          · have h2 : m * (y % skip) ≤ m * (skip - 1) :=
              mul_le_mul_of_nonneg_left (by omega) (le_of_lt hm0)
            nlinarith
        rw [resequence_eq n skip hn hs hdvd _ hib.1 hib.2, ← hmdef]
        have hmod : (m * (y % skip) + y / skip) % m = y / skip := by
          rw [add_comm, Int.add_mul_emod_self_left,
            Int.emod_eq_of_lt hq0 hq1]
        have hdiv : (m * (y % skip) + y / skip) / m = y % skip := by
          rw [add_comm, Int.add_mul_ediv_left _ _ (ne_of_gt hm0),
            Int.ediv_eq_zero_of_lt hq0 hq1, zero_add]
        rw [hmod, hdiv]
        exact Int.ediv_add_emod y skip
  refine ⟨hbij, ?_, ?_⟩
  · intro i h0 h1
    have hiy : i ∈ Set.Ico (0:ℤ) n := Set.mem_Ico.mpr ⟨h0, by omega⟩
    obtain ⟨w, hw, hww⟩ := hbij.surjOn hiy
    refine ⟨w, ⟨hw, hww⟩, ?_⟩
    intro w2 hw2
    exact hbij.injOn hw2.1 hw (hw2.2.trans hww.symm)
  · intro g max_atoms l l2 hmax hperm
    funext c
    rw [mapPass_counts g max_atoms l initState
        (by intro c2; simp [initState]; omega) c,
      mapPass_counts g max_atoms l2 initState
        (by intro c2; simp [initState]; omega) c]
    have : hitCount g c l = hitCount g c l2 := hperm.countP_eq _
    rw [this]

theorem claim_C6_amended_witness :
    (0 < (4:ℤ)) ∧ (0 < (2:ℤ)) ∧ ((2:ℤ) ∣ 4) ∧ ((3:ℤ) ≤ 4) ∧
    Set.BijOn (resequence 4 2) (Set.Ico 0 4) (Set.Ico 0 4) :=
  ⟨by norm_num, by norm_num, by norm_num, by norm_num,
   (claim_C6_amended 4 2 3 (by norm_num) (by norm_num) (by norm_num)
      (by norm_num)).1⟩

/-! ### The scatter deposit collapsed pointwise -/

/-- Membership of grid point `pt` in the order-wide deposit cube based at
cell `c`: the stencil loops write to `c + (l,m,n)` for `0 ≤ l,m,n ≤ order-1`. -/
def inCube (c : ℤ × ℤ × ℤ) (order : ℤ) (pt : ℤ × ℤ × ℤ) : Prop :=
  (c.1 ≤ pt.1 ∧ pt.1 ≤ c.1 + (order - 1)) ∧
  (c.2.1 ≤ pt.2.1 ∧ pt.2.1 ≤ c.2.1 + (order - 1)) ∧
  (c.2.2 ≤ pt.2.2 ∧ pt.2.2 ≤ c.2.2 + (order - 1))

instance (c : ℤ × ℤ × ℤ) (order : ℤ) (pt : ℤ × ℤ × ℤ) :
    Decidable (inCube c order pt) := by
  unfold inCube; infer_instance

/-- The deposit of one atom evaluated at one grid point: the unique loop
target hitting `pt` (offset `pt - c`) contributes its weight; points outside
the cube receive nothing. -/
lemma scatterOne_eq (coeff : ℤ → ℚ) (order order2 : ℤ) (delvolinv : ℚ)
    (c : ℤ × ℤ × ℤ) (d : ℚ × ℚ × ℚ) (q : ℚ) (pt : ℤ × ℤ × ℤ) :
    scatterOne coeff order order2 delvolinv c d q pt =
      if inCube c order pt then
        delvolinv * q * rho1dW coeff order order2 (pt.2.2 - c.2.2) d.2.2 *
          rho1dW coeff order order2 (pt.2.1 - c.2.1) d.2.1 *
          rho1dW coeff order order2 (pt.1 - c.1) d.1
      else 0 := by
  obtain ⟨cx, cy, cz⟩ := c
  obtain ⟨px, py, pz⟩ := pt
  unfold scatterOne stencilBox inCube
  by_cases h : (cx ≤ px ∧ px ≤ cx + (order - 1)) ∧
      (cy ≤ py ∧ py ≤ cy + (order - 1)) ∧ (cz ≤ pz ∧ pz ≤ cz + (order - 1))
  · rw [if_pos h]
    rw [Finset.sum_eq_single (px - cx, py - cy, pz - cz)]
    · rw [if_pos (by simp only [Prod.mk.injEq]; omega)]
    · intro b hb hne
      rw [if_neg]
      intro heq
      apply hne
      obtain ⟨b1, b2, b3⟩ := b
      simp only [Prod.mk.injEq] at heq ⊢
      omega
    · intro hALn
      exfalso
      apply hALn
      simp only [Finset.mem_product, Finset.mem_Icc]
      refine ⟨⟨by omega, by omega⟩, ⟨by omega, by omega⟩, by omega, by omega⟩
  · rw [if_neg h]
    apply Finset.sum_eq_zero
    intro b hb
    obtain ⟨b1, b2, b3⟩ := b
    simp only [Finset.mem_product, Finset.mem_Icc] at hb
    rw [if_neg]
    intro heq
    apply h
    simp only [Prod.mk.injEq] at heq
    refine ⟨⟨by omega, by omega⟩, ⟨by omega, by omega⟩, by omega, by omega⟩

/-- A make_rho3 pass adds, at every grid point, the deposits of the
in-domain particles (out-of-domain ones contribute nothing). -/
lemma makeRho3_eq (g : Geom) (coeff : ℤ → ℚ) (order order2 : ℤ)
    (delvolinv : ℚ) (ps : List Atom) :
    ∀ (brick0 : ℤ × ℤ × ℤ → ℚ) (pt : ℤ × ℤ × ℤ),
      makeRho3 g coeff order order2 delvolinv ps brick0 pt =
        brick0 pt + (ps.map (fun p =>
          if outOfDomain g p then 0
          else scatterOne coeff order order2 delvolinv (cellOf g p)
            (dOfRho3 g p) p.q pt)).sum := by
  induction ps with
  | nil => intro brick0 pt; simp [makeRho3]
  | cons p ps ih =>
      intro brick0 pt
      simp only [makeRho3, List.foldl_cons, List.map_cons, List.sum_cons]
      have h2 := ih (makeRho3One g coeff order order2 delvolinv brick0 p) pt
      simp only [makeRho3] at h2
      rw [h2]
      unfold makeRho3One
      split_ifs with h
      · ring
      · simp only []
        ring

lemma cellOf_mem_cellBox (g : Geom) (p : Atom) (h : ¬outOfDomain g p) :
    cellOf g p ∈ cellBox g := by
  obtain ⟨h1, h2, h3, h4, h5, h6⟩ := (not_outOfDomain_iff g p).mp h
  have hx : 0 ≤ nxOf g p := by
    unfold nxOf
    rw [intTrunc_eq_floor _ h1]
    exact Int.le_floor.mpr (by push_cast; exact h1)
  have hy : 0 ≤ nyOf g p := by
    unfold nyOf
    rw [intTrunc_eq_floor _ h2]
    exact Int.le_floor.mpr (by push_cast; exact h2)
  have hz : 0 ≤ nzOf g p := by
    unfold nzOf
    rw [intTrunc_eq_floor _ h3]
    exact Int.le_floor.mpr (by push_cast; exact h3)
  simp only [cellBox, cellOf, Finset.mem_product, Finset.mem_Icc]
  exact ⟨⟨hx, by omega⟩, ⟨hy, by omega⟩, hz, by omega⟩

/-- Summing per-cell atom lists built by filtering on the owning cell equals
summing over the particles directly. -/
lemma cellLists_sum (g : Geom) (ps : List Atom) (f : (ℤ × ℤ × ℤ) → Atom → ℚ)
    (hdom : ∀ p ∈ ps, cellOf g p ∈ cellBox g) :
    ∑ c ∈ cellBox g, ((cellListsOf g ps c).map (f c)).sum
      = (ps.map (fun p => f (cellOf g p) p)).sum := by
  induction ps with
  | nil => simp [cellListsOf]
  | cons p ps ih =>
      have hmem : cellOf g p ∈ cellBox g := hdom p (List.mem_cons_self p ps)
      have ihh := ih (fun p2 hp2 => hdom p2 (List.mem_cons_of_mem _ hp2))
      simp only [List.map_cons, List.sum_cons]
      have hsplit : ∀ c ∈ cellBox g,
          ((cellListsOf g (p :: ps) c).map (f c)).sum =
            (if cellOf g p = c then f c p else 0) +
              ((cellListsOf g ps c).map (f c)).sum := by
        intro c _
        unfold cellListsOf
        rw [List.filter_cons]
        by_cases hc : cellOf g p = c
        · simp [hc]
        · simp [hc]
      rw [Finset.sum_congr rfl hsplit, Finset.sum_add_distrib,
        Finset.sum_ite_eq (cellBox g) (cellOf g p) (fun c => f c p), if_pos hmem, ihh]

/-- Closed form of the particle_map + make_rho pipeline at each grid point,
for in-domain particles: the brick value is the sum over particles whose
stencil cube covers the point of the separable weighted charge. -/
lemma makeRhoParticles_eq (g : Geom) (coeff : ℤ → ℚ) (order order2 : ℤ)
    (delvolinv : ℚ) (ps : List Atom) (hdom : ∀ p ∈ ps, ¬outOfDomain g p)
    (pt : ℤ × ℤ × ℤ) :
    makeRhoParticles g coeff order order2 delvolinv ps pt =
      (ps.map (fun p =>
        if inCube (cellOf g p) order pt then
          delvolinv * p.q *
            rho1dW coeff order order2 (pt.2.2 - nzOf g p) ((nzOf g p : ℚ) - tZ g p) *
            rho1dW coeff order order2 (pt.2.1 - nyOf g p) ((nyOf g p : ℚ) - tY g p) *
            rho1dW coeff order order2 (pt.1 - nxOf g p) ((nxOf g p : ℚ) - tX g p)
        else 0)).sum := by
  unfold makeRhoParticles makeRho
  simp only [zero_add]
  rw [cellLists_sum g ps _ (fun p hp => cellOf_mem_cellBox g p (hdom p hp))]
  congr 1
  apply List.map_congr_left
  intro p _
  rw [scatterOne_eq]
  rfl

/-! ### Claim C1: pointwise sum and order independence of make_rho -/

/-- Claim C1: for every particle set (all in-domain, so that the mapper
assigns each particle to its owning cell list) and every coefficient table,
the brick produced by a full make_rho pass holds, at each grid point, the
sum over all particles whose order-wide stencil covers that point of
`charge * wx(dx)*wy(dy)*wz(dz) * delvolinv`; and any permutation of the
particle list produces the same brick under exact accumulation. -/
theorem claim_C1 (g : Geom) (coeff : ℤ → ℚ) (order order2 : ℤ)
    (delvolinv : ℚ) (ps : List Atom) (hdom : ∀ p ∈ ps, ¬outOfDomain g p) :
    (∀ pt : ℤ × ℤ × ℤ,
      makeRhoParticles g coeff order order2 delvolinv ps pt =
        (ps.map (fun p =>
          if inCube (cellOf g p) order pt then
            p.q * (rho1dW coeff order order2 (pt.1 - nxOf g p) ((nxOf g p : ℚ) - tX g p) *
              rho1dW coeff order order2 (pt.2.1 - nyOf g p) ((nyOf g p : ℚ) - tY g p) *
              rho1dW coeff order order2 (pt.2.2 - nzOf g p) ((nzOf g p : ℚ) - tZ g p)) *
              delvolinv
          else 0)).sum) ∧
    (∀ ps2 : List Atom, ps.Perm ps2 → ∀ pt : ℤ × ℤ × ℤ,
      makeRhoParticles g coeff order order2 delvolinv ps2 pt =
        makeRhoParticles g coeff order order2 delvolinv ps pt) := by
  constructor
  · intro pt
    rw [makeRhoParticles_eq g coeff order order2 delvolinv ps hdom pt]
    congr 1
    apply List.map_congr_left
    intro p _
    split_ifs
    · ring
    · rfl
  · intro ps2 hperm pt
    have hdom2 : ∀ p ∈ ps2, ¬outOfDomain g p := fun p hp =>
      hdom p (hperm.mem_iff.mpr hp)
    rw [makeRhoParticles_eq g coeff order order2 delvolinv ps hdom pt,
      makeRhoParticles_eq g coeff order order2 delvolinv ps2 hdom2 pt]
    exact (hperm.map _).sum_eq.symm

theorem claim_C1_witness :
    (∀ p ∈ [originAtom], ¬outOfDomain unitGeom p) ∧
    makeRhoParticles unitGeom (fun _ => 1) 1 0 1 [originAtom] (0, 0, 0) =
      ([originAtom].map (fun p =>
        if inCube (cellOf unitGeom p) 1 ((0:ℤ), (0:ℤ), (0:ℤ)) then
          p.q * (rho1dW (fun _ => 1) 1 0 (0 - nxOf unitGeom p)
              ((nxOf unitGeom p : ℚ) - tX unitGeom p) *
            rho1dW (fun _ => 1) 1 0 (0 - nyOf unitGeom p)
              ((nyOf unitGeom p : ℚ) - tY unitGeom p) *
            rho1dW (fun _ => 1) 1 0 (0 - nzOf unitGeom p)
              ((nzOf unitGeom p : ℚ) - tZ unitGeom p)) * 1
        else 0)).sum := by
  have hdom : ∀ p ∈ [originAtom], ¬outOfDomain unitGeom p := by
    intro p hp
    rw [List.mem_singleton] at hp
    subst hp
    exact originAtom_ok
  exact ⟨hdom, (claim_C1 unitGeom (fun _ => 1) 1 0 1 [originAtom] hdom).1 (0, 0, 0)⟩

/-! ### Claim C9: stencil locality -/

/-- Claim C9: a single in-domain particle spread onto a zero brick deposits
only inside the order-wide cube based at its owning cell; every grid point
outside that cube still holds exactly zero after the pass — both for the
make_rho3 scatter and for the make_rho pipeline. -/
theorem claim_C9 (g : Geom) (coeff : ℤ → ℚ) (order order2 : ℤ)
    (delvolinv : ℚ) (p : Atom) (hdom : ¬outOfDomain g p) (pt : ℤ × ℤ × ℤ)
    (hout : ¬inCube (cellOf g p) order pt) :
    makeRho3 g coeff order order2 delvolinv [p] (fun _ => 0) pt = 0 ∧
    makeRhoParticles g coeff order order2 delvolinv [p] pt = 0 := by
  constructor
  · rw [makeRho3_eq]
    simp [hdom, scatterOne_eq, hout]
  · rw [makeRhoParticles_eq g coeff order order2 delvolinv [p]
      (by intro p2 hp2; rw [List.mem_singleton] at hp2; subst hp2; exact hdom) pt]
    simp [hout]

theorem claim_C9_witness :
    ¬outOfDomain unitGeom originAtom ∧
    ¬inCube (cellOf unitGeom originAtom) 1 ((5:ℤ), (0:ℤ), (0:ℤ)) ∧
    makeRho3 unitGeom (fun _ => 1) 1 0 1 [originAtom] (fun _ => 0) (5, 0, 0) = 0 := by
  have hcube : ¬inCube (cellOf unitGeom originAtom) 1 ((5:ℤ), (0:ℤ), (0:ℤ)) := by
    rw [originAtom_cell]
    unfold inCube
    norm_num
  exact ⟨originAtom_ok, hcube,
    (claim_C9 unitGeom (fun _ => 1) 1 0 1 originAtom originAtom_ok
      (5, 0, 0) hcube).1⟩

/-! ### Claim C8: charge conservation -/

/-- The order-wide deposit cube based at cell `c`, as a grid-point set. -/
def cubeFinset (c : ℤ × ℤ × ℤ) (order : ℤ) : Finset (ℤ × ℤ × ℤ) :=
  Finset.Icc c.1 (c.1 + (order - 1)) ×ˢ
    Finset.Icc c.2.1 (c.2.1 + (order - 1)) ×ˢ
    Finset.Icc c.2.2 (c.2.2 + (order - 1))

lemma mem_cubeFinset (c : ℤ × ℤ × ℤ) (order : ℤ) (pt : ℤ × ℤ × ℤ) :
    pt ∈ cubeFinset c order ↔ inCube c order pt := by
  simp only [cubeFinset, inCube, Finset.mem_product, Finset.mem_Icc]

lemma sum_Icc_translate (c o : ℤ) (f : ℤ → ℚ) :
    ∑ x ∈ Finset.Icc c (c + (o - 1)), f (x - c) = ∑ k ∈ Finset.Icc 0 (o - 1), f k := by
  have hmap := Finset.map_add_left_Icc (0:ℤ) (o - 1) c
  rw [add_zero] at hmap
  rw [← hmap, Finset.sum_map]
  apply Finset.sum_congr rfl
  intro k _
  congr 1
  simp [addLeftEmbedding_apply]

/-- Summing one atom's collapsed deposit over any grid region containing its
cube gives the full weight product, which the partition-of-unity property of
the coefficient table makes `delvolinv * q` — for any offsets `dx dy dz`. -/
lemma scatter_cube_sum (coeff : ℤ → ℚ) (order order2 : ℤ) (delvolinv : ℚ)
    (hPU : ∀ d : ℚ,
      ∑ k ∈ Finset.Icc (0:ℤ) (order - 1), rho1dW coeff order order2 k d = 1)
    (c : ℤ × ℤ × ℤ) (dx dy dz q : ℚ) (S : Finset (ℤ × ℤ × ℤ))
    (hS : cubeFinset c order ⊆ S) :
    ∑ pt ∈ S, (if inCube c order pt then
        delvolinv * q * rho1dW coeff order order2 (pt.2.2 - c.2.2) dz *
          rho1dW coeff order order2 (pt.2.1 - c.2.1) dy *
          rho1dW coeff order order2 (pt.1 - c.1) dx
      else 0) = delvolinv * q := by
  have h1 : ∀ pt ∈ S, (if inCube c order pt then
      delvolinv * q * rho1dW coeff order order2 (pt.2.2 - c.2.2) dz *
        rho1dW coeff order order2 (pt.2.1 - c.2.1) dy *
        rho1dW coeff order order2 (pt.1 - c.1) dx else 0) =
      (if pt ∈ cubeFinset c order then
        delvolinv * q * rho1dW coeff order order2 (pt.2.2 - c.2.2) dz *
          rho1dW coeff order order2 (pt.2.1 - c.2.1) dy *
          rho1dW coeff order order2 (pt.1 - c.1) dx else 0) := by
    intro pt _
    exact if_congr (mem_cubeFinset c order pt).symm rfl rfl
  rw [Finset.sum_congr rfl h1, Finset.sum_ite_mem,
    Finset.inter_eq_right.mpr hS]
  unfold cubeFinset
  rw [Finset.sum_product]
  have hz : ∀ x y : ℤ,
      ∑ z ∈ Finset.Icc c.2.2 (c.2.2 + (order - 1)),
        delvolinv * q * rho1dW coeff order order2 (z - c.2.2) dz *
          rho1dW coeff order order2 (y - c.2.1) dy *
          rho1dW coeff order order2 (x - c.1) dx =
      delvolinv * q * rho1dW coeff order order2 (y - c.2.1) dy *
        rho1dW coeff order order2 (x - c.1) dx := by
    intro x y
    have h2 : ∀ z ∈ Finset.Icc c.2.2 (c.2.2 + (order - 1)),
        delvolinv * q * rho1dW coeff order order2 (z - c.2.2) dz *
          rho1dW coeff order order2 (y - c.2.1) dy *
          rho1dW coeff order order2 (x - c.1) dx =
        (delvolinv * q * rho1dW coeff order order2 (y - c.2.1) dy *
          rho1dW coeff order order2 (x - c.1) dx) *
          rho1dW coeff order order2 (z - c.2.2) dz := by
      intro z _
      ring
    rw [Finset.sum_congr rfl h2, ← Finset.mul_sum,
      sum_Icc_translate c.2.2 order (fun k => rho1dW coeff order order2 k dz),
      hPU dz, mul_one]
  have hy : ∀ x : ℤ,
      ∑ y ∈ Finset.Icc c.2.1 (c.2.1 + (order - 1)),
        delvolinv * q * rho1dW coeff order order2 (y - c.2.1) dy *
          rho1dW coeff order order2 (x - c.1) dx =
      delvolinv * q * rho1dW coeff order order2 (x - c.1) dx := by
    intro x
    have h2 : ∀ y ∈ Finset.Icc c.2.1 (c.2.1 + (order - 1)),
        delvolinv * q * rho1dW coeff order order2 (y - c.2.1) dy *
          rho1dW coeff order order2 (x - c.1) dx =
        (delvolinv * q * rho1dW coeff order order2 (x - c.1) dx) *
          rho1dW coeff order order2 (y - c.2.1) dy := by
      intro y _
      ring
    rw [Finset.sum_congr rfl h2, ← Finset.mul_sum,
      sum_Icc_translate c.2.1 order (fun k => rho1dW coeff order order2 k dy),
      hPU dy, mul_one]
  have hx : ∑ x ∈ Finset.Icc c.1 (c.1 + (order - 1)),
      delvolinv * q * rho1dW coeff order order2 (x - c.1) dx = delvolinv * q := by
    have h2 : ∀ x ∈ Finset.Icc c.1 (c.1 + (order - 1)),
        delvolinv * q * rho1dW coeff order order2 (x - c.1) dx =
        (delvolinv * q) * rho1dW coeff order order2 (x - c.1) dx := by
      intro x _
      ring
    rw [Finset.sum_congr rfl h2, ← Finset.mul_sum,
      sum_Icc_translate c.1 order (fun k => rho1dW coeff order order2 k dx),
      hPU dx, mul_one]
  calc ∑ x ∈ Finset.Icc c.1 (c.1 + (order - 1)),
        ∑ yz ∈ Finset.Icc c.2.1 (c.2.1 + (order - 1)) ×ˢ
          Finset.Icc c.2.2 (c.2.2 + (order - 1)),
          delvolinv * q * rho1dW coeff order order2 ((x, yz).2.2 - c.2.2) dz *
            rho1dW coeff order order2 ((x, yz).2.1 - c.2.1) dy *
            rho1dW coeff order order2 ((x, yz).1 - c.1) dx
      = ∑ x ∈ Finset.Icc c.1 (c.1 + (order - 1)),
          delvolinv * q * rho1dW coeff order order2 (x - c.1) dx := by
        apply Finset.sum_congr rfl
        intro x _
        rw [Finset.sum_product]
        rw [Finset.sum_congr rfl (fun y _ => hz x y), hy x]
    _ = delvolinv * q := hx

lemma sum_swap_list (S : Finset (ℤ × ℤ × ℤ)) (ps : List Atom)
    (f : (ℤ × ℤ × ℤ) → Atom → ℚ) :
    ∑ pt ∈ S, (ps.map (f pt)).sum = (ps.map (fun p => ∑ pt ∈ S, f pt p)).sum := by
  induction ps with
  | nil => simp
  | cons p ps ih => simp only [List.map_cons, List.sum_cons, Finset.sum_add_distrib, ih]

/-- Claim C8: for a particle set entirely inside the local domain, summing
the brick over any grid region `S` large enough to contain every particle's
stencil cube gives `Σ charge_i * delvolinv` (`delvolinv` is the inverse cell
volume), provided the coefficient table has the partition-of-unity property
of the charge-assignment function; this holds for the make_rho pipeline and
for make_rho3 alike (exact arithmetic). -/
theorem claim_C8 (g : Geom) (coeff : ℤ → ℚ) (order order2 : ℤ)
    (delvolinv : ℚ) (ps : List Atom) (S : Finset (ℤ × ℤ × ℤ))
    (hPU : ∀ d : ℚ,
      ∑ k ∈ Finset.Icc (0:ℤ) (order - 1), rho1dW coeff order order2 k d = 1)
    (hdom : ∀ p ∈ ps, ¬outOfDomain g p)
    (hS : ∀ p ∈ ps, cubeFinset (cellOf g p) order ⊆ S) :
    (∑ pt ∈ S, makeRhoParticles g coeff order order2 delvolinv ps pt =
      (ps.map (fun p => delvolinv * p.q)).sum) ∧
    (∑ pt ∈ S, makeRho3 g coeff order order2 delvolinv ps (fun _ => 0) pt =
      (ps.map (fun p => delvolinv * p.q)).sum) := by
  constructor
  · have h1 : ∀ pt ∈ S, makeRhoParticles g coeff order order2 delvolinv ps pt =
        (ps.map (fun p =>
          if inCube (cellOf g p) order pt then
            delvolinv * p.q *
              rho1dW coeff order order2 (pt.2.2 - nzOf g p) ((nzOf g p : ℚ) - tZ g p) *
              rho1dW coeff order order2 (pt.2.1 - nyOf g p) ((nyOf g p : ℚ) - tY g p) *
              rho1dW coeff order order2 (pt.1 - nxOf g p) ((nxOf g p : ℚ) - tX g p)
          else 0)).sum :=
      fun pt _ => makeRhoParticles_eq g coeff order order2 delvolinv ps hdom pt
    rw [Finset.sum_congr rfl h1, sum_swap_list]
    congr 1
    apply List.map_congr_left
    intro p hp
    exact scatter_cube_sum coeff order order2 delvolinv hPU (cellOf g p)
      ((nxOf g p : ℚ) - tX g p) ((nyOf g p : ℚ) - tY g p) ((nzOf g p : ℚ) - tZ g p)
      p.q S (hS p hp)
  · have h1 : ∀ pt ∈ S, makeRho3 g coeff order order2 delvolinv ps (fun _ => 0) pt =
        (ps.map (fun p =>
          if inCube (cellOf g p) order pt then
            delvolinv * p.q *
              rho1dW coeff order order2 (pt.2.2 - (cellOf g p).2.2) (dOfRho3 g p).2.2 *
              rho1dW coeff order order2 (pt.2.1 - (cellOf g p).2.1) (dOfRho3 g p).2.1 *
              rho1dW coeff order order2 (pt.1 - (cellOf g p).1) (dOfRho3 g p).1
          else 0)).sum := by
      intro pt _
      rw [makeRho3_eq g coeff order order2 delvolinv ps (fun _ => 0) pt, zero_add]
      congr 1
      apply List.map_congr_left
      intro p hp
      rw [if_neg (hdom p hp), scatterOne_eq]
    rw [Finset.sum_congr rfl h1, sum_swap_list]
    congr 1
    apply List.map_congr_left
    intro p hp
    exact scatter_cube_sum coeff order order2 delvolinv hPU (cellOf g p)
      (dOfRho3 g p).1 (dOfRho3 g p).2.1 (dOfRho3 g p).2.2 p.q S (hS p hp)

theorem claim_C8_witness :
    (∀ d : ℚ, ∑ k ∈ Finset.Icc (0:ℤ) (1 - 1), rho1dW (fun _ => 1) 1 0 k d = 1) ∧
    (∀ p ∈ [originAtom], ¬outOfDomain unitGeom p) ∧
    ∑ pt ∈ cubeFinset ((0:ℤ), (0:ℤ), (0:ℤ)) 1,
      makeRhoParticles unitGeom (fun _ => 1) 1 0 1 [originAtom] pt =
      ([originAtom].map (fun p => 1 * p.q)).sum := by
  have hPU : ∀ d : ℚ,
      ∑ k ∈ Finset.Icc (0:ℤ) (1 - 1), rho1dW (fun _ => 1) 1 0 k d = 1 := by
    intro d
    norm_num [rho1dW, hornerLoop]
  have hdom : ∀ p ∈ [originAtom], ¬outOfDomain unitGeom p := by
    intro p hp
    rw [List.mem_singleton] at hp
    subst hp
    exact originAtom_ok
  have hS : ∀ p ∈ [originAtom],
      cubeFinset (cellOf unitGeom p) 1 ⊆ cubeFinset ((0:ℤ), (0:ℤ), (0:ℤ)) 1 := by
    intro p hp
    rw [List.mem_singleton] at hp
    subst hp
    rw [originAtom_cell]
  exact ⟨hPU, hdom,
    (claim_C8 unitGeom (fun _ => 1) 1 0 1 [originAtom]
      (cubeFinset ((0:ℤ), (0:ℤ), (0:ℤ)) 1) hPU hdom hS).1⟩

/-! ### Claim C2: equivalence of the Horner loops of make_rho and make_rho2 -/

lemma hornerLoop_shift (coeff : ℤ → ℚ) (d : ℚ) (m stop step : ℤ) :
    ∀ (fuel : ℕ) (l : ℤ) (acc : ℚ),
      hornerLoop (fun j => coeff (j - m)) d stop step fuel l acc =
        hornerLoop coeff d (stop - m) step fuel (l - m) acc := by
  intro fuel
  induction fuel with
  | zero => intro l acc; rfl
  | succ fuel ih =>
      intro l acc
      simp only [hornerLoop]
      by_cases h : stop ≤ l
      · rw [if_pos h, if_pos (by omega), ih]
        rw [show l - step - m = l - m - step from by ring]
      · rw [if_neg h, if_neg (by omega)]

lemma hornerLoop_congr_stop (coeff : ℤ → ℚ) (d : ℚ) (stop1 stop2 step : ℤ) :
    ∀ (fuel : ℕ) (l : ℤ) (acc : ℚ),
      (∀ k : ℕ, k < fuel → (stop1 ≤ l - (k:ℤ) * step ↔ stop2 ≤ l - (k:ℤ) * step)) →
      hornerLoop coeff d stop1 step fuel l acc =
        hornerLoop coeff d stop2 step fuel l acc := by
  intro fuel
  induction fuel with
  | zero => intro l acc _; rfl
  | succ fuel ih =>
      intro l acc hk
      have h0 := hk 0 (Nat.succ_pos fuel)
      simp only [Nat.cast_zero, zero_mul, sub_zero] at h0
      simp only [hornerLoop]
      by_cases h : stop1 ≤ l
      · rw [if_pos h, if_pos (h0.mp h)]
        apply ih
        intro k hkf
        have hnext := hk (k + 1) (by omega)
        have harith : l - step - (k:ℤ) * step = l - ((k:ℕ) + 1 : ℤ) * step := by
          ring
        rw [harith]
        exact_mod_cast hnext
      · rw [if_neg h, if_neg (fun h2 => h (h0.mpr h2))]

/-- The Horner evaluation of make_rho2 at window index `m` computes the
make_rho weight of index `order - 1 - m`: the shifted coefficient walk
`rho_coeff[k-m]`, `k = order2+order-1, order2-1, ..., ≥ 0` visits exactly
the coefficients of column `order-1-m` (requires the host's
`order2 = order*(order-1)`). -/
lemma rho1dW2_eq (coeff : ℤ → ℚ) (order order2 : ℤ) (ho : 1 ≤ order)
    (h2 : order2 = order * (order - 1)) (m : ℤ) (d : ℚ) :
    rho1dW2 coeff order order2 m d = rho1dW coeff order order2 (order - 1 - m) d := by
  unfold rho1dW2 rho1dW
  rw [hornerLoop_shift coeff d m 0 order _ (order2 + order - 1) 0]
  rw [show order2 + (order - 1 - m) = order2 + order - 1 - m from by ring]
  apply hornerLoop_congr_stop
  intro k _
  constructor
  · intro h3
    have hsum : (k:ℤ) * order ≤ order2 + order - 1 := by linarith
    have hlt : (k:ℤ) < order := by
      by_contra hge
      push_neg at hge
      have hmul : order * order ≤ (k:ℤ) * order :=
        mul_le_mul_of_nonneg_right hge (by omega)
      have : order2 + order - 1 = order * order - 1 := by rw [h2]; ring
      linarith
    have hle : (k:ℤ) ≤ order - 1 := by omega
    have hmul2 : (k:ℤ) * order ≤ (order - 1) * order :=
      mul_le_mul_of_nonneg_right hle (by omega)
    have he : (order - 1) * order = order2 := by rw [h2]; ring
    linarith
  · intro h3
    linarith

/-- Reindexing a window sum of make_rho2 (offsets `x_start ≤ l < x_stop`,
cells `gx + l - (order-1)`) as an indicator sum over all local cells. -/
lemma win_sum (o nloc gx : ℤ) (f : ℤ → ℚ) :
    ∑ l ∈ Finset.Icc (winStart (o - 1) gx) (winStop o nloc gx - 1),
        f (gx + l - (o - 1))
      = ∑ cx ∈ Finset.Icc 0 (nloc - 1),
          (if gx - (o - 1) ≤ cx ∧ cx ≤ gx then f cx else 0) := by
  have hmap := Finset.map_add_left_Icc (winStart (o - 1) gx)
    (winStop o nloc gx - 1) (gx - (o - 1))
  have hL : ∑ l ∈ Finset.Icc (winStart (o - 1) gx) (winStop o nloc gx - 1),
      f (gx + l - (o - 1))
      = ∑ x ∈ Finset.Icc (gx - (o - 1) + winStart (o - 1) gx)
          (gx - (o - 1) + (winStop o nloc gx - 1)), f x := by
    rw [← hmap, Finset.sum_map]
    apply Finset.sum_congr rfl
    intro l _
    congr 1
    rw [addLeftEmbedding_apply]
    ring
  rw [hL]
  have hR : ∀ cx ∈ Finset.Icc (0:ℤ) (nloc - 1),
      (if gx - (o - 1) ≤ cx ∧ cx ≤ gx then f cx else 0) =
      (if cx ∈ Finset.Icc (gx - (o - 1)) gx then f cx else 0) := by
    intro cx _
    exact if_congr (by rw [Finset.mem_Icc]) rfl rfl
  rw [Finset.sum_congr rfl hR, Finset.sum_ite_mem]
  congr 1
  ext x
  simp only [Finset.mem_inter, Finset.mem_Icc, winStart, winStop]
  split_ifs <;> omega

/-- Reindexing the z gather of make_rho2 (grid point `gz` collects `ans[n]`
from cell layer `gz - n`) as an indicator sum over all local cell layers. -/
lemma zwin_sum (o nlz gz : ℤ) (F : ℤ → ℤ → ℚ) :
    ∑ n ∈ Finset.Icc 0 (o - 1),
        (if 0 ≤ gz - n ∧ gz - n < nlz then F (gz - n) n else 0)
      = ∑ cz ∈ Finset.Icc 0 (nlz - 1),
          (if gz - (o - 1) ≤ cz ∧ cz ≤ gz then F cz (gz - cz) else 0) := by
  have step1 : ∑ n ∈ Finset.Icc (0:ℤ) (o - 1),
      (if 0 ≤ gz - n ∧ gz - n < nlz then F (gz - n) n else 0)
      = ∑ cz ∈ Finset.Icc (gz - (o - 1)) gz,
          (if 0 ≤ cz ∧ cz < nlz then F cz (gz - cz) else 0) := by
    apply Finset.sum_nbij' (fun n => gz - n) (fun cz => gz - cz)
    · intro n hn
      simp only [Finset.mem_Icc] at hn ⊢
      omega
    · intro cz hc
      simp only [Finset.mem_Icc] at hc ⊢
      omega
    · intro n _
      ring
    · intro cz _
      ring
    · intro n _
      rw [show gz - (gz - n) = n from by ring]
  rw [step1]
  have hL : ∀ cz ∈ Finset.Icc (gz - (o - 1)) gz,
      (if 0 ≤ cz ∧ cz < nlz then F cz (gz - cz) else 0) =
      (if cz ∈ Finset.Icc 0 (nlz - 1) then F cz (gz - cz) else 0) := by
    intro cz _
    exact if_congr (by rw [Finset.mem_Icc]; omega) rfl rfl
  have hR : ∀ cz ∈ Finset.Icc (0:ℤ) (nlz - 1),
      (if gz - (o - 1) ≤ cz ∧ cz ≤ gz then F cz (gz - cz) else 0) =
      (if cz ∈ Finset.Icc (gz - (o - 1)) gz then F cz (gz - cz) else 0) := by
    intro cz _
    exact if_congr (by rw [Finset.mem_Icc]) rfl rfl
  rw [Finset.sum_congr rfl hL, Finset.sum_congr rfl hR, Finset.sum_ite_mem,
    Finset.sum_ite_mem, Finset.inter_comm]

/-- The make_rho scatter pass on a zeroed brick, rewritten as a gather: the
value at grid point `(px, py, pz)` is the triple indicator sum over the
local cells whose stencil reaches the point. -/
lemma makeRho_master (g : Geom) (coeff : ℤ → ℚ) (order order2 : ℤ)
    (delvolinv : ℚ) (alist : ℤ × ℤ × ℤ → List Atom) (px py pz : ℤ) :
    makeRho g coeff order order2 delvolinv alist (fun _ => 0) (px, py, pz)
      = ∑ cz ∈ Finset.Icc 0 (g.nlocal_z - 1),
          (if pz - (order - 1) ≤ cz ∧ cz ≤ pz then
            ∑ cy ∈ Finset.Icc 0 (g.nlocal_y - 1),
              (if py - (order - 1) ≤ cy ∧ cy ≤ py then
                ∑ cx ∈ Finset.Icc 0 (g.nlocal_x - 1),
                  (if px - (order - 1) ≤ cx ∧ cx ≤ px then
                    ((alist (cx, cy, cz)).map (fun p =>
                      delvolinv * p.q *
                        rho1dW coeff order order2 (pz - cz) ((cz : ℚ) - tZ g p) *
                        rho1dW coeff order order2 (py - cy) ((cy : ℚ) - tY g p) *
                        rho1dW coeff order order2 (px - cx) ((cx : ℚ) - tX g p))).sum
                  else 0)
              else 0)
          else 0) := by
  unfold makeRho
  have h0 : ((fun _ : ℤ × ℤ × ℤ => (0:ℚ)) (px, py, pz)) = 0 := rfl
  rw [h0, zero_add]
  have hcell : ∀ c ∈ cellBox g,
      ((alist c).map (fun p =>
        scatterOne coeff order order2 delvolinv c (dOfRho g c p) p.q (px, py, pz))).sum
      = (if inCube c order (px, py, pz) then
          ((alist c).map (fun p =>
            delvolinv * p.q *
              rho1dW coeff order order2 (pz - c.2.2) ((c.2.2 : ℚ) - tZ g p) *
              rho1dW coeff order order2 (py - c.2.1) ((c.2.1 : ℚ) - tY g p) *
              rho1dW coeff order order2 (px - c.1) ((c.1 : ℚ) - tX g p))).sum
        else 0) := by
    intro c _
    by_cases hcc : inCube c order (px, py, pz)
    · rw [if_pos hcc]
      congr 1
      apply List.map_congr_left
      intro p _
      rw [scatterOne_eq, if_pos hcc]
      rfl
    · rw [if_neg hcc]
      apply List.sum_eq_zero
      intro x hx2
      rw [List.mem_map] at hx2
      obtain ⟨p, -, rfl⟩ := hx2
      rw [scatterOne_eq, if_neg hcc]
  rw [Finset.sum_congr rfl hcell]
  unfold cellBox
  rw [Finset.sum_product]
  rw [Finset.sum_congr rfl (fun cx _ => Finset.sum_product _ _ _)]
  have hsplit : ∀ cx cy cz : ℤ,
      (if inCube (cx, cy, cz) order (px, py, pz) then
        ((alist (cx, cy, cz)).map (fun p =>
          delvolinv * p.q *
            rho1dW coeff order order2 (pz - cz) ((cz : ℚ) - tZ g p) *
            rho1dW coeff order order2 (py - cy) ((cy : ℚ) - tY g p) *
            rho1dW coeff order order2 (px - cx) ((cx : ℚ) - tX g p))).sum
      else 0)
      = (if pz - (order - 1) ≤ cz ∧ cz ≤ pz then
          if py - (order - 1) ≤ cy ∧ cy ≤ py then
            if px - (order - 1) ≤ cx ∧ cx ≤ px then
              ((alist (cx, cy, cz)).map (fun p =>
                delvolinv * p.q *
                  rho1dW coeff order order2 (pz - cz) ((cz : ℚ) - tZ g p) *
                  rho1dW coeff order order2 (py - cy) ((cy : ℚ) - tY g p) *
                  rho1dW coeff order order2 (px - cx) ((cx : ℚ) - tX g p))).sum
            else 0
          else 0
        else 0) := by
    intro cx cy cz
    unfold inCube
    simp only []
    split_ifs <;> first | rfl | (exfalso; omega)
  rw [Finset.sum_congr rfl (fun cx _ =>
    Finset.sum_congr rfl (fun cy _ =>
      Finset.sum_congr rfl (fun cz _ => hsplit cx cy cz)))]
  rw [Finset.sum_congr rfl (fun cx _ => Finset.sum_comm)]
  rw [Finset.sum_comm]
  rw [Finset.sum_congr rfl (fun cz _ => Finset.sum_comm)]
  apply Finset.sum_congr rfl
  intro cz _
  by_cases hzw : pz - (order - 1) ≤ cz ∧ cz ≤ pz
  · rw [if_pos hzw]
    apply Finset.sum_congr rfl
    intro cy _
    by_cases hyw : py - (order - 1) ≤ cy ∧ cy ≤ py
    · rw [if_pos hyw]
      apply Finset.sum_congr rfl
      intro cx _
      rw [if_pos hzw, if_pos hyw]
    · rw [if_neg hyw]
      apply Finset.sum_eq_zero
      intro cx _
      rw [if_pos hzw, if_neg hyw]
  · rw [if_neg hzw]
    apply Finset.sum_eq_zero
    intro cy _
    apply Finset.sum_eq_zero
    intro cx _
    rw [if_neg hzw]

set_option maxHeartbeats 1600000 in
/-- The make_rho2 gather body at a written grid point, rewritten over local
cells: the three window reindexings compose with the Horner identity
`rho1dW2 m = rho1dW (order-1-m)` to give exactly the scatter master form. -/
lemma makeRho2_gather_master (g : Geom) (coeff : ℤ → ℚ) (order order2 : ℤ)
    (delvolinv : ℚ) (alist : ℤ × ℤ × ℤ → List Atom) (ho : 1 ≤ order)
    (h2 : order2 = order * (order - 1)) (px py pz : ℤ) :
    ∑ n ∈ Finset.Icc 0 (order - 1),
      (if 0 ≤ pz - n ∧ pz - n < g.nlocal_z then
        ∑ m ∈ Finset.Icc (winStart (order - 1) py) (winStop order g.nlocal_y py - 1),
          ∑ l ∈ Finset.Icc (winStart (order - 1) px) (winStop order g.nlocal_x px - 1),
            ((alist (px + l - (order - 1), py + m - (order - 1), pz - n)).map (fun p =>
              delvolinv * p.q *
                rho1dW coeff order order2 n (((pz - n : ℤ) : ℚ) - tZ g p) *
                rho1dW2 coeff order order2 m (((py + m - (order - 1) : ℤ) : ℚ) - tY g p) *
                rho1dW2 coeff order order2 l (((px + l - (order - 1) : ℤ) : ℚ) - tX g p))).sum
      else 0)
    = ∑ cz ∈ Finset.Icc 0 (g.nlocal_z - 1),
        (if pz - (order - 1) ≤ cz ∧ cz ≤ pz then
          ∑ cy ∈ Finset.Icc 0 (g.nlocal_y - 1),
            (if py - (order - 1) ≤ cy ∧ cy ≤ py then
              ∑ cx ∈ Finset.Icc 0 (g.nlocal_x - 1),
                (if px - (order - 1) ≤ cx ∧ cx ≤ px then
                  ((alist (cx, cy, cz)).map (fun p =>
                    delvolinv * p.q *
                      rho1dW coeff order order2 (pz - cz) ((cz : ℚ) - tZ g p) *
                      rho1dW coeff order order2 (py - cy) ((cy : ℚ) - tY g p) *
                      rho1dW coeff order order2 (px - cx) ((cx : ℚ) - tX g p))).sum
                else 0)
            else 0)
        else 0) := by
  have hml : ∀ n : ℤ,
      (∑ m ∈ Finset.Icc (winStart (order - 1) py) (winStop order g.nlocal_y py - 1),
        ∑ l ∈ Finset.Icc (winStart (order - 1) px) (winStop order g.nlocal_x px - 1),
          ((alist (px + l - (order - 1), py + m - (order - 1), pz - n)).map (fun p =>
            delvolinv * p.q *
              rho1dW coeff order order2 n (((pz - n : ℤ) : ℚ) - tZ g p) *
              rho1dW2 coeff order order2 m (((py + m - (order - 1) : ℤ) : ℚ) - tY g p) *
              rho1dW2 coeff order order2 l (((px + l - (order - 1) : ℤ) : ℚ) - tX g p))).sum)
      = ∑ cy ∈ Finset.Icc 0 (g.nlocal_y - 1),
          (if py - (order - 1) ≤ cy ∧ cy ≤ py then
            ∑ cx ∈ Finset.Icc 0 (g.nlocal_x - 1),
              (if px - (order - 1) ≤ cx ∧ cx ≤ px then
                ((alist (cx, cy, pz - n)).map (fun p =>
                  delvolinv * p.q *
                    rho1dW coeff order order2 n (((pz - n : ℤ) : ℚ) - tZ g p) *
                    rho1dW coeff order order2 (py - cy) ((cy : ℚ) - tY g p) *
                    rho1dW coeff order order2 (px - cx) ((cx : ℚ) - tX g p))).sum
              else 0)
          else 0) := by
    intro n
    have hlstep : ∀ m : ℤ,
        (∑ l ∈ Finset.Icc (winStart (order - 1) px) (winStop order g.nlocal_x px - 1),
          ((alist (px + l - (order - 1), py + m - (order - 1), pz - n)).map (fun p =>
            delvolinv * p.q *
              rho1dW coeff order order2 n (((pz - n : ℤ) : ℚ) - tZ g p) *
              rho1dW2 coeff order order2 m (((py + m - (order - 1) : ℤ) : ℚ) - tY g p) *
              rho1dW2 coeff order order2 l (((px + l - (order - 1) : ℤ) : ℚ) - tX g p))).sum)
        = ∑ cx ∈ Finset.Icc 0 (g.nlocal_x - 1),
            (if px - (order - 1) ≤ cx ∧ cx ≤ px then
              ((alist (cx, py + m - (order - 1), pz - n)).map (fun p =>
                delvolinv * p.q *
                  rho1dW coeff order order2 n (((pz - n : ℤ) : ℚ) - tZ g p) *
                  rho1dW2 coeff order order2 m (((py + m - (order - 1) : ℤ) : ℚ) - tY g p) *
                  rho1dW coeff order order2 (px - cx) ((cx : ℚ) - tX g p))).sum
            else 0) := by
      intro m
      have hcongr : (∑ l ∈ Finset.Icc (winStart (order - 1) px)
            (winStop order g.nlocal_x px - 1),
          ((alist (px + l - (order - 1), py + m - (order - 1), pz - n)).map (fun p =>
            delvolinv * p.q *
              rho1dW coeff order order2 n (((pz - n : ℤ) : ℚ) - tZ g p) *
              rho1dW2 coeff order order2 m (((py + m - (order - 1) : ℤ) : ℚ) - tY g p) *
              rho1dW2 coeff order order2 l (((px + l - (order - 1) : ℤ) : ℚ) - tX g p))).sum)
          = ∑ l ∈ Finset.Icc (winStart (order - 1) px) (winStop order g.nlocal_x px - 1),
              (fun cx => ((alist (cx, py + m - (order - 1), pz - n)).map (fun p =>
                delvolinv * p.q *
                  rho1dW coeff order order2 n (((pz - n : ℤ) : ℚ) - tZ g p) *
                  rho1dW2 coeff order order2 m (((py + m - (order - 1) : ℤ) : ℚ) - tY g p) *
                  rho1dW coeff order order2 (px - cx) ((cx : ℚ) - tX g p))).sum)
                (px + l - (order - 1)) := by
        apply Finset.sum_congr rfl
        intro l _
        simp only []
        congr 1
        apply List.map_congr_left
        intro p _
        rw [rho1dW2_eq coeff order order2 ho h2 l,
          show px - (px + l - (order - 1)) = order - 1 - l from by ring]
      rw [hcongr]
      exact win_sum order g.nlocal_x px
        (fun cx => ((alist (cx, py + m - (order - 1), pz - n)).map (fun p =>
          delvolinv * p.q *
            rho1dW coeff order order2 n (((pz - n : ℤ) : ℚ) - tZ g p) *
            rho1dW2 coeff order order2 m (((py + m - (order - 1) : ℤ) : ℚ) - tY g p) *
            rho1dW coeff order order2 (px - cx) ((cx : ℚ) - tX g p))).sum)
    have hmstep : (∑ m ∈ Finset.Icc (winStart (order - 1) py)
          (winStop order g.nlocal_y py - 1),
        ∑ cx ∈ Finset.Icc 0 (g.nlocal_x - 1),
          (if px - (order - 1) ≤ cx ∧ cx ≤ px then
            ((alist (cx, py + m - (order - 1), pz - n)).map (fun p =>
              delvolinv * p.q *
                rho1dW coeff order order2 n (((pz - n : ℤ) : ℚ) - tZ g p) *
                rho1dW2 coeff order order2 m (((py + m - (order - 1) : ℤ) : ℚ) - tY g p) *
                rho1dW coeff order order2 (px - cx) ((cx : ℚ) - tX g p))).sum
          else 0))
        = ∑ m ∈ Finset.Icc (winStart (order - 1) py) (winStop order g.nlocal_y py - 1),
            (fun cy => ∑ cx ∈ Finset.Icc 0 (g.nlocal_x - 1),
              (if px - (order - 1) ≤ cx ∧ cx ≤ px then
                ((alist (cx, cy, pz - n)).map (fun p =>
                  delvolinv * p.q *
                    rho1dW coeff order order2 n (((pz - n : ℤ) : ℚ) - tZ g p) *
                    rho1dW coeff order order2 (py - cy) ((cy : ℚ) - tY g p) *
                    rho1dW coeff order order2 (px - cx) ((cx : ℚ) - tX g p))).sum
              else 0))
              (py + m - (order - 1)) := by
      apply Finset.sum_congr rfl
      intro m _
      simp only []
      apply Finset.sum_congr rfl
      intro cx _
      by_cases hxw : px - (order - 1) ≤ cx ∧ cx ≤ px
      · rw [if_pos hxw, if_pos hxw]
        congr 1
        apply List.map_congr_left
        intro p _
        rw [rho1dW2_eq coeff order order2 ho h2 m,
          show py - (py + m - (order - 1)) = order - 1 - m from by ring]
      · rw [if_neg hxw, if_neg hxw]
    calc (∑ m ∈ Finset.Icc (winStart (order - 1) py)
          (winStop order g.nlocal_y py - 1),
        ∑ l ∈ Finset.Icc (winStart (order - 1) px) (winStop order g.nlocal_x px - 1),
          ((alist (px + l - (order - 1), py + m - (order - 1), pz - n)).map (fun p =>
            delvolinv * p.q *
              rho1dW coeff order order2 n (((pz - n : ℤ) : ℚ) - tZ g p) *
              rho1dW2 coeff order order2 m (((py + m - (order - 1) : ℤ) : ℚ) - tY g p) *
              rho1dW2 coeff order order2 l (((px + l - (order - 1) : ℤ) : ℚ) - tX g p))).sum)
        = ∑ m ∈ Finset.Icc (winStart (order - 1) py)
            (winStop order g.nlocal_y py - 1),
            ∑ cx ∈ Finset.Icc 0 (g.nlocal_x - 1),
              (if px - (order - 1) ≤ cx ∧ cx ≤ px then
                ((alist (cx, py + m - (order - 1), pz - n)).map (fun p =>
                  delvolinv * p.q *
                    rho1dW coeff order order2 n (((pz - n : ℤ) : ℚ) - tZ g p) *
                    rho1dW2 coeff order order2 m (((py + m - (order - 1) : ℤ) : ℚ) - tY g p) *
                    rho1dW coeff order order2 (px - cx) ((cx : ℚ) - tX g p))).sum
              else 0) := Finset.sum_congr rfl (fun m _ => hlstep m)
      _ = _ := by
          rw [hmstep]
          exact win_sum order g.nlocal_y py
            (fun cy => ∑ cx ∈ Finset.Icc 0 (g.nlocal_x - 1),
              (if px - (order - 1) ≤ cx ∧ cx ≤ px then
                ((alist (cx, cy, pz - n)).map (fun p =>
                  delvolinv * p.q *
                    rho1dW coeff order order2 n (((pz - n : ℤ) : ℚ) - tZ g p) *
                    rho1dW coeff order order2 (py - cy) ((cy : ℚ) - tY g p) *
                    rho1dW coeff order order2 (px - cx) ((cx : ℚ) - tX g p))).sum
              else 0))
  calc ∑ n ∈ Finset.Icc 0 (order - 1),
      (if 0 ≤ pz - n ∧ pz - n < g.nlocal_z then
        ∑ m ∈ Finset.Icc (winStart (order - 1) py) (winStop order g.nlocal_y py - 1),
          ∑ l ∈ Finset.Icc (winStart (order - 1) px) (winStop order g.nlocal_x px - 1),
            ((alist (px + l - (order - 1), py + m - (order - 1), pz - n)).map (fun p =>
              delvolinv * p.q *
                rho1dW coeff order order2 n (((pz - n : ℤ) : ℚ) - tZ g p) *
                rho1dW2 coeff order order2 m (((py + m - (order - 1) : ℤ) : ℚ) - tY g p) *
                rho1dW2 coeff order order2 l (((px + l - (order - 1) : ℤ) : ℚ) - tX g p))).sum
      else 0)
      = ∑ n ∈ Finset.Icc 0 (order - 1),
          (if 0 ≤ pz - n ∧ pz - n < g.nlocal_z then
            (fun cz nn => ∑ cy ∈ Finset.Icc 0 (g.nlocal_y - 1),
              (if py - (order - 1) ≤ cy ∧ cy ≤ py then
                ∑ cx ∈ Finset.Icc 0 (g.nlocal_x - 1),
                  (if px - (order - 1) ≤ cx ∧ cx ≤ px then
                    ((alist (cx, cy, cz)).map (fun p =>
                      delvolinv * p.q *
                        rho1dW coeff order order2 nn ((cz : ℚ) - tZ g p) *
                        rho1dW coeff order order2 (py - cy) ((cy : ℚ) - tY g p) *
                        rho1dW coeff order order2 (px - cx) ((cx : ℚ) - tX g p))).sum
                  else 0)
              else 0)) (pz - n) n
          else 0) := by
        apply Finset.sum_congr rfl
        intro n _
        by_cases hzg : 0 ≤ pz - n ∧ pz - n < g.nlocal_z
        · rw [if_pos hzg, if_pos hzg]
          exact hml n
        · rw [if_neg hzg, if_neg hzg]
    _ = _ := zwin_sum order g.nlocal_z pz
      (fun cz nn => ∑ cy ∈ Finset.Icc 0 (g.nlocal_y - 1),
        (if py - (order - 1) ≤ cy ∧ cy ≤ py then
          ∑ cx ∈ Finset.Icc 0 (g.nlocal_x - 1),
            (if px - (order - 1) ≤ cx ∧ cx ≤ px then
              ((alist (cx, cy, cz)).map (fun p =>
                delvolinv * p.q *
                  rho1dW coeff order order2 nn ((cz : ℚ) - tZ g p) *
                  rho1dW coeff order order2 (py - cy) ((cy : ℚ) - tY g p) *
                  rho1dW coeff order order2 (px - cx) ((cx : ℚ) - tX g p))).sum
            else 0)
        else 0))

/-- Claim C2 amended: make_rho (per-particle scatter driven by the cell
lists) and make_rho2 (tiled gather with halo reduction) produce identical
bricks for every input, under exact arithmetic, on a grid that holds every
stencil target (`npts ≥ nlocal + order - 1`, the halo the host allocates)
and with the host's `order2 = order*(order-1)`.  make_rho3 is excluded: it
evaluates the stencil weights at offsets one half cell larger
(`dx = nx+0.5-tx` instead of `dx = nx-tx`) and in general produces a
different brick (see the counterexample). -/
theorem claim_C2_amended (g : Geom) (coeff : ℤ → ℚ) (order order2 : ℤ)
    (delvolinv : ℚ) (npts_x npts_y npts_z : ℤ)
    (alist : ℤ × ℤ × ℤ → List Atom) (ho : 1 ≤ order)
    (h2 : order2 = order * (order - 1))
    (hx : g.nlocal_x + order - 1 ≤ npts_x)
    (hy : g.nlocal_y + order - 1 ≤ npts_y)
    (hz : g.nlocal_z + order - 1 ≤ npts_z) :
    ∀ pt : ℤ × ℤ × ℤ,
      makeRho2 g coeff order order2 delvolinv npts_x npts_y npts_z alist
        (fun _ => 0) pt =
      makeRho g coeff order order2 delvolinv alist (fun _ => 0) pt := by
  intro pt
  obtain ⟨px, py, pz⟩ := pt
  rw [makeRho_master g coeff order order2 delvolinv alist px py pz]
  unfold makeRho2
  by_cases hpt : 0 ≤ px ∧ px < npts_x ∧ 0 ≤ py ∧ py < npts_y ∧
      0 ≤ pz ∧ pz < npts_z
  · rw [if_pos hpt]
    exact makeRho2_gather_master g coeff order order2 delvolinv alist ho h2 px py pz
  · rw [if_neg hpt]
    symm
    apply Finset.sum_eq_zero
    intro cz hczm
    by_cases hzw : pz - (order - 1) ≤ cz ∧ cz ≤ pz
    · rw [if_pos hzw]
      apply Finset.sum_eq_zero
      intro cy hcym
      by_cases hyw : py - (order - 1) ≤ cy ∧ cy ≤ py
      · rw [if_pos hyw]
        apply Finset.sum_eq_zero
        intro cx hcxm
        have hnxw : ¬(px - (order - 1) ≤ cx ∧ cx ≤ px) := by
          simp only [Finset.mem_Icc] at hczm hcym hcxm
          intro hxw
          exact hpt ⟨by omega, by omega, by omega, by omega, by omega, by omega⟩
        rw [if_neg hnxw]
      · rw [if_neg hyw]
    · rw [if_neg hzw]

theorem claim_C2_amended_witness :
    (1 ≤ (1:ℤ)) ∧ ((0:ℤ) = 1 * (1 - 1)) ∧
    (unitGeom.nlocal_x + 1 - 1 ≤ 1) ∧ (unitGeom.nlocal_y + 1 - 1 ≤ 1) ∧
    (unitGeom.nlocal_z + 1 - 1 ≤ 1) ∧
    makeRho2 unitGeom (fun _ => 1) 1 0 1 1 1 1
        (cellListsOf unitGeom [originAtom]) (fun _ => 0) (0, 0, 0) =
      makeRho unitGeom (fun _ => 1) 1 0 1
        (cellListsOf unitGeom [originAtom]) (fun _ => 0) (0, 0, 0) :=
  ⟨by norm_num, by norm_num, by norm_num [unitGeom], by norm_num [unitGeom],
   by norm_num [unitGeom],
   claim_C2_amended unitGeom (fun _ => 1) 1 0 1 1 1 1
     (cellListsOf unitGeom [originAtom]) (by norm_num) (by norm_num)
     (by norm_num [unitGeom]) (by norm_num [unitGeom]) (by norm_num [unitGeom])
     (0, 0, 0)⟩

/-! ### Claim C2 counterexample: make_rho3 differs from make_rho -/

/-- A coefficient table for order 2 (`order2 = 2`): weight 0 is
`c[0] + c[2]*d = d`, weight 1 is `c[1] + c[3]*d = 1`. -/
def cexCoeff : ℤ → ℚ :=
  fun j => if j = 0 then 0 else if j = 1 then 1 else if j = 2 then 1 else 0

/-- A particle at fractional coordinates (1/4, 1/4, 1/4), owned by cell
(0,0,0) of the unit box. -/
def cexAtom : Atom := ⟨1/4, 1/4, 1/4, 1⟩

/-- One unfolding step of the Horner loop. -/
lemma hornerLoop_step (coeff : ℤ → ℚ) (d : ℚ) (stop step : ℤ) (fuel : ℕ)
    (l : ℤ) (acc : ℚ) :
    hornerLoop coeff d stop step (fuel + 1) l acc =
      if stop ≤ l then hornerLoop coeff d stop step fuel (l - step) (coeff l + acc * d)
      else acc := rfl

/-- The order-2 weight of index 0 over `cexCoeff` evaluates to `d`. -/
lemma cex_w0 (d : ℚ) : rho1dW cexCoeff 2 2 0 d = d := by
  have h1 : rho1dW cexCoeff 2 2 0 d = hornerLoop cexCoeff d 0 2 (4 + 1) 2 0 := rfl
  rw [h1, hornerLoop_step, if_pos (by norm_num : (0:ℤ) ≤ 2)]
  rw [show (4:ℕ) = 3 + 1 from rfl, hornerLoop_step,
    if_pos (by norm_num : (0:ℤ) ≤ 2 - 2)]
  rw [show (3:ℕ) = 2 + 1 from rfl, hornerLoop_step,
    if_neg (by norm_num : ¬(0:ℤ) ≤ 2 - 2 - 2)]
  norm_num [cexCoeff]

lemma cexAtom_t :
    tX unitGeom cexAtom = 1/4 ∧ tY unitGeom cexAtom = 1/4 ∧
      tZ unitGeom cexAtom = 1/4 := by
  norm_num [tX, tY, tZ, unitGeom, cexAtom]

lemma cexAtom_cellparts :
    nxOf unitGeom cexAtom = 0 ∧ nyOf unitGeom cexAtom = 0 ∧
      nzOf unitGeom cexAtom = 0 := by
  obtain ⟨h1, h2, h3⟩ := cexAtom_t
  have hf : ⌊(1/4 : ℚ)⌋ = 0 := by
    rw [Int.floor_eq_iff]
    norm_num
  refine ⟨?_, ?_, ?_⟩ <;>
    norm_num [nxOf, nyOf, nzOf, intTrunc, h1, h2, h3, hf]

lemma cexAtom_ok : ¬outOfDomain unitGeom cexAtom := by
  obtain ⟨h1, h2, h3⟩ := cexAtom_t
  obtain ⟨h4, h5, h6⟩ := cexAtom_cellparts
  rw [not_outOfDomain_iff, h1, h2, h3, h4, h5, h6]
  norm_num [unitGeom]

/-- Claim C2 is refuted by the code: on the same input (one particle at
fractional coordinates (1/4,1/4,1/4) in a unit box, order 2, the table
`cexCoeff`), make_rho deposits `(-1/4)^3 = -1/64` at grid point (0,0,0)
(its offsets are `dx = nx - tx = -1/4`), while make_rho3 deposits
`(1/4)^3 = 1/64` (its offsets are `dx = nx + 0.5 - tx = 1/4`): the two
strategies produce different bricks even under exact arithmetic. -/
theorem claim_C2_counterexample :
    makeRhoParticles unitGeom cexCoeff 2 2 1 [cexAtom] (0, 0, 0) ≠
      makeRho3 unitGeom cexCoeff 2 2 1 [cexAtom] (fun _ => 0) (0, 0, 0) := by
  obtain ⟨ht1, ht2, ht3⟩ := cexAtom_t
  obtain ⟨hn1, hn2, hn3⟩ := cexAtom_cellparts
  have hcell : cellOf unitGeom cexAtom = (0, 0, 0) := by
    rw [cellOf, hn1, hn2, hn3]
  have hdom := cexAtom_ok
  have hdoml : ∀ p ∈ [cexAtom], ¬outOfDomain unitGeom p := by
    intro p hp
    rw [List.mem_singleton] at hp
    subst hp
    exact hdom
  have hA : makeRhoParticles unitGeom cexCoeff 2 2 1 [cexAtom] (0, 0, 0) =
      -(1/64) := by
    rw [makeRhoParticles_eq unitGeom cexCoeff 2 2 1 [cexAtom] hdoml (0, 0, 0)]
    simp only [List.map_cons, List.map_nil, List.sum_cons, List.sum_nil, add_zero]
    rw [hcell, hn1, hn2, hn3, ht1, ht2, ht3]
    norm_num [inCube, cex_w0, cexAtom]
  have hB : makeRho3 unitGeom cexCoeff 2 2 1 [cexAtom] (fun _ => 0) (0, 0, 0) =
      1/64 := by
    rw [makeRho3_eq unitGeom cexCoeff 2 2 1 [cexAtom] (fun _ => 0) (0, 0, 0)]
    simp only [List.map_cons, List.map_nil, List.sum_cons, List.sum_nil, add_zero]
    rw [if_neg hdom, scatterOne_eq, hcell]
    have hd3 : dOfRho3 unitGeom cexAtom = (1/4, 1/4, 1/4) := by
      rw [dOfRho3, hn1, hn2, hn3, ht1, ht2, ht3]
      norm_num
    rw [hd3]
    norm_num [inCube, cex_w0, cexAtom]
  rw [hA, hB]
  norm_num

end PPPMGpu
